import Mathlib

/-!
Skip list (`skiplist.c`): shallow embedding.

The C program keeps its nodes in `malloc`ed blocks linked by raw pointers.
The embedding makes the memory explicit:

* a heap is a list of blocks, an address is an index into it, `malloc`
  appends a block (addresses are never reused) and `free` empties the
  block, so that a later access through a stale pointer is visible;
* a pointer is `Option Nat`, `none` being `NULL`;
* a `forward` array has one entry per allocated slot
  (`sizeof(cell)` already holds one slot, so `malloc(sizeof(cell) +
  n * sizeof(cell *))` gives `n + 1` of them); an entry is `none` until
  it is first written;
* every operation returns an `Option`: `none` stands for an execution
  the C standard leaves undefined (access through a freed or
  never-written pointer, index outside an array) or that does not end.

`rand()` is not modelled in `insert`: the value returned by
`random_level()` is an argument of `insert`.  `malloc` is assumed not to
fail.
-/

namespace SkipList

/-- `#define MAXLEVEL 16`. -/
def MAXLEVEL : Nat := 16

/-- The enumeration `ret_codes`. -/
inductive ret_codes where
  | ERROR_MALLOC
  | ERROR_NOT_FOUND
  | ERROR_DUPLICATE
  | OK
deriving DecidableEq, Repr

/-- A block holding a `struct tcell`.  `forward` has one entry per
allocated slot; `none` is a slot never written, `some none` holds `NULL`
and `some (some a)` holds the address `a`. -/
structure cell where
  value : Int
  level : Int
  forward : List (Option (Option Nat))
deriving DecidableEq, Repr

/-- The heap: the block at each address, `none` once freed. -/
abbrev Heap := List (Option cell)

/-- The struct `slist`: the address of the head block and the level. -/
structure slist where
  head : Nat
  level : Int
deriving DecidableEq, Repr

/-- The memory together with the caller's `slist` variable. -/
structure State where
  mem : Heap
  list : slist
deriving DecidableEq, Repr

/-- The local array `cell *update[MAXLEVEL]`; `none` is an entry not yet
assigned. -/
abbrev Update := List (Option Nat)

/-- Dereference an address: the block there, if it is live. -/
def deref (m : Heap) (p : Nat) : Option cell := (m[p]?).join

/-- Read `p->forward[i]`. -/
def readFwd (m : Heap) (p i : Nat) : Option (Option Nat) :=
  match deref m p with
  | none => none
  | some c => (c.forward[i]?).join

/-- Write `p->forward[i] = v`. -/
def writeFwd (m : Heap) (p i : Nat) (v : Option Nat) : Option Heap :=
  match deref m p with
  | none => none
  | some c =>
    if i < c.forward.length then
      some (m.set p (some { c with forward := c.forward.set i (some v) }))
    else none

/-- The call `free(p)`. -/
def free (m : Heap) (p : Nat) : Option Heap :=
  match deref m p with
  | none => none
  | some _ => some (m.set p none)

/-- The array `update` on entry of a function. -/
def update_init : Update := List.replicate MAXLEVEL none

/-- The assignment `update[i] = x`. -/
def setUpdate (upd : Update) (i x : Nat) : Option Update :=
  if i < upd.length then some (upd.set i (some x)) else none

/-- Read `update[i]`. -/
def getUpdate (upd : Update) (i : Nat) : Option Nat := (upd[i]?).join

/-- The function `setup_list`: allocate the head, set its `MAXLEVEL`
lanes to `NULL`, its value and level to 0.  The member `list->level` is
not assigned: it keeps the value the caller's variable had. -/
def setup_list (list : slist) : State :=
  { mem := [some { value := 0, level := 0,
                   forward := List.replicate MAXLEVEL (some none) ++ [none] }],
    list := { list with head := 0 } }

/-- The block `make_node` fills in: the value, the level, and
`level + 1` slots, none of them written yet. -/
def new_cell (level : Int) (element : Int) : cell :=
  { value := element, level := level, forward := List.replicate (level.toNat + 1) none }

/-- The function `make_node`: a fresh block at the next free address. -/
def make_node (m : Heap) (level : Int) (element : Int) : Option (Heap × Nat) :=
  if level < 0 then none
  else some (m ++ [some (new_cell level element)], m.length)

/-- The inner loop
`while (x->forward[i] != NULL && x->forward[i]->value < element) x = x->forward[i];`.
The first argument bounds the number of iterations. -/
def advance (m : Heap) (element : Int) (i : Nat) : Nat → Nat → Option Nat
  | 0, _ => none
  | fuel + 1, x =>
    match readFwd m x i with
    | none => none
    | some none => some x
    | some (some y) =>
      match deref m y with
      | none => none
      | some c =>
        if c.value < element then advance m element i fuel y else some x

/-- The loop `for (i = list->level-1; i >= 0; i--)` of `search`; the
first argument is `i + 1`. -/
def search_loop (m : Heap) (element : Int) : Nat → Nat → Option Nat
  | 0, x => some x
  | i + 1, x =>
    match advance m element i m.length x with
    | none => none
    | some x' => search_loop m element i x'

/-- The test `x != NULL && x->value == element`. -/
def holds_key (m : Heap) (x : Option Nat) (element : Int) : Option Bool :=
  match x with
  | none => some false
  | some y =>
    match deref m y with
    | none => none
    | some c => some (decide (c.value = element))

/-- The function `search`. -/
def search (s : State) (element : Int) : Option (Option Nat) :=
  match search_loop s.mem element s.list.level.toNat s.list.head with
  | none => none
  | some x =>
    match readFwd s.mem x 0 with
    | none => none
    | some x0 =>
      match holds_key s.mem x0 element with
      | none => none
      | some true => some x0
      | some false => some none

/-- The loop `for (i = list->level-1; i >= 0; i--)` of `insert` and of
`delete`, which also records `update[i] = x`; the first argument is
`i + 1`. -/
def find_update (m : Heap) (element : Int) : Nat → Nat → Update → Option (Nat × Update)
  | 0, x, upd => some (x, upd)
  | i + 1, x, upd =>
    match advance m element i m.length x with
    | none => none
    | some x' =>
      match setUpdate upd i x' with
      | none => none
      | some upd' => find_update m element i x' upd'

/-- One iteration of the linking loop of `insert`:
`x->forward[i] = update[i]->forward[i]; update[i]->forward[i] = x;`. -/
def link_step (upd : Update) (x : Nat) (m : Heap) (i : Nat) : Option Heap :=
  match getUpdate upd i with
  | none => none
  | some u =>
    match readFwd m u i with
    | none => none
    | some f =>
      match writeFwd m x i f with
      | none => none
      | some m1 => writeFwd m1 u i (some x)

/-- The loop `for (i = 0; i < lvl; i++)` of `insert`, over the list of
the values `i` takes. -/
def link_loop (upd : Update) (x : Nat) : List Nat → Heap → Option Heap
  | [], m => some m
  | i :: rest, m =>
    match link_step upd x m i with
    | none => none
    | some m' => link_loop upd x rest m'

/-- The block `if (lvl > list->level) ...` of `insert`: the new
`list->level`, the new `lvl` and the new `update`. -/
def grow (list : slist) (lvl : Int) (upd : Update) : Option (Int × Int × Update) :=
  if lvl > list.level then
    if list.level + 1 - 1 < 0 then none
    else
      match setUpdate upd (list.level + 1 - 1).toNat list.head with
      | none => none
      | some upd' => some (list.level + 1, list.level + 1, upd')
  else some (list.level, lvl, upd)

/-- The function `insert`; `rl` is the value `random_level()` returns. -/
def insert (s : State) (element : Int) (rl : Int) : Option (ret_codes × State) :=
  match find_update s.mem element s.list.level.toNat s.list.head update_init with
  | none => none
  | some (x, upd) =>
    match readFwd s.mem x 0 with
    | none => none
    | some x0 =>
      match holds_key s.mem x0 element with
      | none => none
      | some true => some (ret_codes.ERROR_DUPLICATE, s)
      | some false =>
        match grow s.list rl upd with
        | none => none
        | some (level', lvl, upd') =>
          match make_node s.mem lvl element with
          | none => none
          | some (m1, n) =>
            match link_loop upd' n (List.range lvl.toNat) m1 with
            | none => none
            | some m2 =>
              some (ret_codes.OK, { mem := m2, list := { s.list with level := level' } })

/-- The loop `for (i = 0; i < list->level; i++)` of `delete` with its
`break`, over the list of the values `i` takes. -/
def unlink_loop (upd : Update) (x : Nat) : List Nat → Heap → Option Heap
  | [], m => some m
  | i :: rest, m =>
    match getUpdate upd i with
    | none => none
    | some u =>
      match readFwd m u i with
      | none => none
      | some f =>
        if f = some x then
          match readFwd m x i with
          | none => none
          | some fx =>
            match writeFwd m u i fx with
            | none => none
            | some m' => unlink_loop upd x rest m'
        else some m

/-- The loop
`while (list->level > 1 && list->head->forward[list->level] == NULL) list->level--;`.
The first argument bounds the number of iterations. -/
def shrink (m : Heap) (head : Nat) : Nat → Int → Option Int
  | 0, level => if level > 1 then none else some level
  | fuel + 1, level =>
    if level > 1 then
      match readFwd m head level.toNat with
      | none => none
      | some none => shrink m head fuel (level - 1)
      | some (some _) => some level
    else some level

/-- The function `delete`. -/
def delete (s : State) (key : Int) : Option (ret_codes × State) :=
  match find_update s.mem key s.list.level.toNat s.list.head update_init with
  | none => none
  | some (x, upd) =>
    match readFwd s.mem x 0 with
    | none => none
    | some x0 =>
      match holds_key s.mem x0 key with
      | none => none
      | some false => some (ret_codes.ERROR_NOT_FOUND, s)
      | some true =>
        match x0 with
        | none => none
        | some y =>
          match unlink_loop upd y (List.range s.list.level.toNat) s.mem with
          | none => none
          | some m1 =>
            match free m1 y with
            | none => none
            | some m2 =>
              match shrink m2 s.list.head s.list.level.toNat s.list.level with
              | none => none
              | some level' =>
                some (ret_codes.OK, { mem := m2, list := { s.list with level := level' } })

/-- The addresses met on lane `i` after `p`, following `forward[i]` up
to `NULL` (the traversal of `print_list` and `delete_list`, for lane
`i`).  The first argument bounds the number of steps. -/
def lane (m : Heap) (i : Nat) : Nat → Nat → Option (List Nat)
  | 0, _ => none
  | fuel + 1, p =>
    match readFwd m p i with
    | none => none
    | some none => some []
    | some (some q) =>
      match lane m i fuel q with
      | none => none
      | some rest => some (q :: rest)

/-- The member `value` of the block at an address (0 if there is none). -/
def valueAt (m : Heap) (p : Nat) : Int :=
  match deref m p with
  | none => 0
  | some c => c.value

/-- The nodes of lane `i` of a list, from `head->forward[i]` on. -/
def lane_nodes (s : State) (i : Nat) : Option (List Nat) :=
  lane s.mem i (s.mem.length + 1) s.list.head

/-- The keys of lane `i` of a list, from `head->forward[i]` on. -/
def lane_keys (s : State) (i : Nat) : Option (List Int) :=
  (lane_nodes s i).map (fun l => l.map (valueAt s.mem))

/-- A call of `insert` (with the value drawn by `random_level`) or of
`delete`. -/
inductive Op where
  | ins (key : Int) (rl : Int)
  | del (key : Int)
deriving DecidableEq, Repr

/-- Run one call; the return code and the state after it. -/
def step (s : State) : Op → Option (ret_codes × State)
  | Op.ins k rl => insert s k rl
  | Op.del k => delete s k

/-- Run a sequence of calls; the return codes and the final state. -/
def run (s : State) : List Op → Option (List ret_codes × State)
  | [] => some ([], s)
  | op :: rest =>
    match step s op with
    | none => none
    | some (r, s') =>
      match run s' rest with
      | none => none
      | some (rs, s'') => some (r :: rs, s'')

/-- The drawn heights of a sequence of calls all lie in `[1, MAXLEVEL]`. -/
def heights_ok : List Op → Prop
  | [] => True
  | Op.ins _ rl :: rest => 1 ≤ rl ∧ rl ≤ (MAXLEVEL : Int) ∧ heights_ok rest
  | Op.del _ :: rest => heights_ok rest

/-- The lists reachable from `setup_list` by calls of `insert` (with a
drawn height in `[1, MAXLEVEL]`) and of `delete` that return. -/
inductive Reachable : State → Prop where
  | setup (l0 : slist) : Reachable (setup_list l0)
  | insert {s s' : State} {k rl : Int} {r : ret_codes} :
      Reachable s → 1 ≤ rl → rl ≤ (MAXLEVEL : Int) →
      SkipList.insert s k rl = some (r, s') → Reachable s'
  | delete {s s' : State} {k : Int} {r : ret_codes} :
      Reachable s → SkipList.delete s k = some (r, s') → Reachable s'

/-- The header of the block at an address, if it is live: its value,
its level and the number of slots of its `forward` array. -/
def hdr (m : Heap) (p : Nat) : Option (Int × Int × Nat) :=
  (deref m p).map (fun c => (c.value, c.level, c.forward.length))

/-- The loop `advance` on lane `i` for key `k` stops at `b`: the next
pointer is `NULL` or leads to a live block whose value is not below `k`. -/
def Stop (m : Heap) (k : Int) (i b : Nat) : Prop :=
  readFwd m b i = some none ∨
    ∃ y c, readFwd m b i = some (some y) ∧ deref m y = some c ∧ ¬ c.value < k

/-- Lane 0 from the block `p` on: the blocks of the list in turn, each
the target of the pointer `forward[0]` of the one before, and after the
last one the pointer `e`. -/
def Path (m : Heap) (p : Nat) : List Nat → Option Nat → Prop
  | [], e => readFwd m p 0 = some e
  | a :: rest, e => readFwd m p 0 = some (some a) ∧ Path m a rest e

/-- The invariant of lane 0: `ch` is the chain of blocks from
`head->forward[0]` to `NULL`, their values increase strictly, every live
block other than the head is on it, and it is empty while the level is
not positive. -/
structure Lane0 (s : State) (ch : List Nat) : Prop where
  path : Path s.mem s.list.head ch none
  sorted : (ch.map (valueAt s.mem)).Pairwise (fun a b => a < b)
  all : ∀ p, hdr s.mem p ≠ none → p = s.list.head ∨ p ∈ ch
  head : s.list.head ∉ ch
  empty : s.list.level ≤ 0 → ch = []

/-- The pointer of lane `i` of the block `p` is in order: it is `NULL`,
or it leads to a live block other than the head that has a lane `i` and,
unless `p` is the head, a larger value. -/
def Next (s : State) (p i : Nat) : Prop :=
  readFwd s.mem p i = some none ∨
    ∃ q cq, readFwd s.mem p i = some (some q) ∧ q ≠ s.list.head ∧ deref s.mem q = some cq ∧
      (i : Int) < cq.level ∧ (p ≠ s.list.head → valueAt s.mem p < cq.value)

/-- The block `p` has the lanes below `n`: it is the head and
`n ≤ MAXLEVEL`, or a live block of level at least `n`. -/
def Has (s : State) (p n : Nat) : Prop :=
  (p = s.list.head ∧ n ≤ MAXLEVEL) ∨
    (p ≠ s.list.head ∧ ∃ c, deref s.mem p = some c ∧ (n : Int) ≤ c.level)

/-- The invariant of a list that has only seen insertions: lane 0 is in
order, the level lies in `[0, MAXLEVEL]`, every pointer of every lane of
a live block is in order, and the lanes of the head from the level on
are empty. -/
structure Good (s : State) (ch : List Nat) : Prop where
  lane0 : Lane0 s ch
  level_ge : 0 ≤ s.list.level
  level_le : s.list.level ≤ (MAXLEVEL : Int)
  next : ∀ p n i, Has s p n → i < n → Next s p i
  top : ∀ i : Nat, s.list.level ≤ (i : Int) → i < MAXLEVEL →
    readFwd s.mem s.list.head i = some none

/-- The return codes the specification gives for inserting the keys in
turn, `seen` being the keys inserted before: `ERROR_DUPLICATE` for a key
that already occurred, `OK` for the others. -/
def dup_codes (seen : List Int) : List Int → List ret_codes
  | [] => []
  | k :: ks =>
    (if k ∈ seen then ret_codes.ERROR_DUPLICATE else ret_codes.OK) :: dup_codes (k :: seen) ks

/-- The blocks of lane 0 still ahead of `x`: the measure that bounds a
walk of `advance`. -/
def ahead (s : State) (ch : List Nat) (x : Nat) : Nat :=
  ch.countP (fun a => decide (x = s.list.head ∨ valueAt s.mem x < valueAt s.mem a))

/-- The value of `list->level` after each call of a sequence. -/
def levels_after (s : State) : List Op → Option (List Int)
  | [] => some []
  | op :: rest =>
    match step s op with
    | none => none
    | some (_, s') =>
      match levels_after s' rest with
      | none => none
      | some ls => some (s'.list.level :: ls)

/-- The loop `while ((rand()&1) == 0 && lvl < MAXLEVEL) lvl++;` of
`random_level`; `rand n` is the value the call number `n` of `rand()`
returns.  The first argument bounds the number of iterations, the second
counts the calls made so far. -/
def random_level_loop (rand : Nat → Nat) : Nat → Nat → Int → Option Int
  | 0, _, _ => none
  | fuel + 1, n, lvl =>
    if rand n &&& 1 = 0 ∧ lvl < (MAXLEVEL : Int) then
      random_level_loop rand fuel (n + 1) (lvl + 1)
    else some lvl

/-- The function `random_level`, for a given sequence of values of
`rand()`. -/
def random_level (rand : Nat → Nat) : Option Int :=
  random_level_loop rand MAXLEVEL 0 1

/-- The number of leading values of the sequence, among its first `n`,
whose lowest bit is 0: the coin flips that come before the first
"tails". -/
def leading_even (rand : Nat → Nat) : Nat → Nat
  | 0 => 0
  | n + 1 => if rand 0 % 2 = 0 then leading_even (fun i => rand (i + 1)) n + 1 else 0

/-- The lane indices at which the loop
`while (list->level > 1 && list->head->forward[list->level] == NULL) list->level--;`
reads the `forward` array of the head.  The first argument bounds the
number of iterations. -/
def shrink_reads (m : Heap) (head : Nat) : Nat → Int → List Nat
  | 0, _ => []
  | fuel + 1, level =>
    if level > 1 then
      level.toNat ::
        (match readFwd m head level.toNat with
         | some none => shrink_reads m head fuel (level - 1)
         | _ => [])
    else []

/-- The lane indices at which the level-shrink loop of `delete` reads
the `forward` array of the head, when the call gets that far: `delete`
up to that loop. -/
def delete_shrink_reads (s : State) (key : Int) : Option (List Nat) :=
  match find_update s.mem key s.list.level.toNat s.list.head update_init with
  | none => none
  | some (x, upd) =>
    match readFwd s.mem x 0 with
    | none => none
    | some x0 =>
      match holds_key s.mem x0 key with
      | none => none
      | some false => some []
      | some true =>
        match x0 with
        | none => none
        | some y =>
          match unlink_loop upd y (List.range s.list.level.toNat) s.mem with
          | none => none
          | some m1 =>
            match free m1 y with
            | none => none
            | some m2 => some (shrink_reads m2 s.list.head s.list.level.toNat s.list.level)

/-- The new block of `insert` is linked into exactly the lanes below
`lvl`: the block at the next free address of `s` holds the key and the
recorded level `lvl` in `s'`; on every lane below `lvl` one block that
existed before now points to it, the new block points where that block
pointed, and no other block changed; on every lane from `lvl` on no
block changed and the slot of the new block is unwritten. -/
def Linked (s s' : State) (k : Int) (lvl : Int) : Prop :=
  hdr s'.mem s.mem.length = some (k, lvl, lvl.toNat + 1) ∧
  (∀ j, j < lvl.toNat → ∃ u, u < s.mem.length ∧
    readFwd s'.mem u j = some (some s.mem.length) ∧
    readFwd s'.mem s.mem.length j = readFwd s.mem u j ∧ (readFwd s.mem u j).isSome ∧
    ∀ q, q < s.mem.length → q ≠ u → readFwd s'.mem q j = readFwd s.mem q j) ∧
  (∀ j, lvl.toNat ≤ j → readFwd s'.mem s.mem.length j = none ∧
    ∀ q, q < s.mem.length → readFwd s'.mem q j = readFwd s.mem q j)

/-- Lane `i` from the block `p` on: the blocks of the list in turn, each
the target of the pointer `forward[i]` of the one before, and after the
last one the pointer `e`. -/
def PathAt (m : Heap) (i : Nat) (p : Nat) : List Nat → Option Nat → Prop
  | [], e => readFwd m p i = some e
  | a :: rest, e => readFwd m p i = some (some a) ∧ PathAt m i a rest e

/-- The list obtained from a fresh list of level 1 by a sequence of
calls (the fresh list itself if one of the calls has no result). -/
def state_after (ops : List Op) : State :=
  match run (setup_list { head := 0, level := 1 }) ops with
  | some p => p.2
  | none => setup_list { head := 0, level := 1 }

/-- The lanes of the list after `insert(3)`, `insert(1)`, `insert(4)`
with drawn heights 1, 2, 3: the addresses of the blocks of lanes 0, 1
and 2. -/
def example_lanes : Nat → List Nat
  | 0 => [2, 1, 3]
  | 1 => [2, 3]
  | 2 => [3]
  | _ => []


/-! ## The heap -/

theorem deref_lt {m : Heap} {p : Nat} {c : cell} (h : deref m p = some c) : p < m.length := by
  unfold deref at h
  by_contra hlt
  rw [List.getElem?_eq_none (by omega)] at h
  simp at h

theorem deref_set_ne (m : Heap) (p q : Nat) (v : Option cell) (h : p ≠ q) :
    deref (m.set q v) p = deref m p := by
  unfold deref
  rw [List.getElem?_set_ne (Ne.symm h)]

theorem deref_set_eq (m : Heap) (q : Nat) (v : Option cell) (h : q < m.length) :
    deref (m.set q v) q = v := by
  unfold deref
  rw [List.getElem?_set_self h]
  rfl

theorem deref_append_left (m l : Heap) (p : Nat) (h : p < m.length) :
    deref (m ++ l) p = deref m p := by
  unfold deref
  rw [List.getElem?_append_left h]

theorem deref_append_new (m : Heap) (c : cell) : deref (m ++ [some c]) m.length = some c := by
  unfold deref
  simp

theorem deref_append_some {m : Heap} (l : Heap) {p : Nat} {c : cell} (h : deref m p = some c) :
    deref (m ++ l) p = some c := by
  rw [deref_append_left m l p (deref_lt h)]; exact h

theorem deref_length (m : Heap) : deref m m.length = none := by
  unfold deref
  rw [List.getElem?_eq_none (le_refl _)]
  rfl

theorem hdr_some {m : Heap} {p : Nat} {c : cell} (h : deref m p = some c) :
    hdr m p = some (c.value, c.level, c.forward.length) := by
  simp [hdr, h]

theorem hdr_eq_some {m : Heap} {p : Nat} {x : Int × Int × Nat} (h : hdr m p = some x) :
    ∃ c, deref m p = some c ∧ c.value = x.1 ∧ c.level = x.2.1 ∧ c.forward.length = x.2.2 := by
  unfold hdr at h
  cases hd : deref m p with
  | none => simp [hd] at h
  | some c =>
    simp [hd] at h
    exact ⟨c, rfl, by rw [← h], by rw [← h], by rw [← h]⟩

theorem hdr_none {m : Heap} {p : Nat} : hdr m p = none ↔ deref m p = none := by
  simp [hdr]

theorem deref_of_hdr_eq {m m' : Heap} {p : Nat} {c : cell} (he : hdr m' p = hdr m p)
    (h : deref m p = some c) :
    ∃ c', deref m' p = some c' ∧ c'.value = c.value ∧ c'.level = c.level ∧
      c'.forward.length = c.forward.length := by
  rw [hdr_some h] at he
  exact hdr_eq_some he

theorem readFwd_live {m : Heap} {p i : Nat} {v : Option Nat} (h : readFwd m p i = some v) :
    ∃ c, deref m p = some c ∧ i < c.forward.length := by
  unfold readFwd at h
  cases hd : deref m p with
  | none => simp [hd] at h
  | some c =>
    refine ⟨c, rfl, ?_⟩
    simp only [hd] at h
    by_contra hlt
    rw [List.getElem?_eq_none (by omega)] at h
    simp at h

theorem writeFwd_cell {m m' : Heap} {p i : Nat} {v : Option Nat}
    (h : writeFwd m p i v = some m') :
    ∃ c, deref m p = some c ∧ i < c.forward.length ∧
      m' = m.set p (some { c with forward := c.forward.set i (some v) }) := by
  unfold writeFwd at h
  cases hd : deref m p with
  | none => simp [hd] at h
  | some c =>
    simp only [hd] at h
    by_cases hi : i < c.forward.length
    · rw [if_pos hi] at h
      exact ⟨c, rfl, hi, (Option.some.inj h).symm⟩
    · rw [if_neg hi] at h
      cases h

theorem writeFwd_length {m m' : Heap} {p i : Nat} {v : Option Nat}
    (h : writeFwd m p i v = some m') : m'.length = m.length := by
  obtain ⟨c, _, _, rfl⟩ := writeFwd_cell h
  simp

theorem writeFwd_hdr {m m' : Heap} {p i : Nat} {v : Option Nat}
    (h : writeFwd m p i v = some m') (q : Nat) : hdr m' q = hdr m q := by
  obtain ⟨c, hc, _, rfl⟩ := writeFwd_cell h
  by_cases hq : q = p
  · subst hq
    unfold hdr
    rw [deref_set_eq _ _ _ (deref_lt hc), hc]
    simp
  · unfold hdr
    rw [deref_set_ne _ _ _ _ hq]

theorem writeFwd_readFwd {m m' : Heap} {p i : Nat} {v : Option Nat}
    (h : writeFwd m p i v = some m') (q j : Nat) :
    readFwd m' q j = if q = p ∧ j = i then some v else readFwd m q j := by
  obtain ⟨c, hc, hi, rfl⟩ := writeFwd_cell h
  by_cases hq : q = p
  · subst hq
    unfold readFwd
    rw [deref_set_eq _ _ _ (deref_lt hc), hc]
    by_cases hj : j = i
    · subst hj
      simp [List.getElem?_set_self hi]
    · simp [hj, List.getElem?_set_ne (Ne.symm hj)]
  · unfold readFwd
    rw [deref_set_ne _ _ _ _ hq]
    simp [hq]

theorem writeFwd_defined {m : Heap} {p i : Nat} {c : cell} (v : Option Nat)
    (hc : deref m p = some c) (hi : i < c.forward.length) :
    ∃ m', writeFwd m p i v = some m' := by
  unfold writeFwd
  rw [hc]
  simp [hi]

/-! ## The loop `advance` -/

theorem advance_succ_of_stop {m : Heap} {k : Int} {i b : Nat} (h : Stop m k i b) (fuel : Nat) :
    advance m k i (fuel + 1) b = some b := by
  unfold advance
  rcases h with h | ⟨y, c, h1, h2, h3⟩
  · rw [h]
  · rw [h1]
    simp only [h2]
    rw [if_neg h3]

theorem advance_stop {m : Heap} {k : Int} {i : Nat} :
    ∀ (fuel a b : Nat), advance m k i fuel a = some b → Stop m k i b := by
  intro fuel
  induction fuel with
  | zero => intro a b h; simp [advance] at h
  | succ f ih =>
    intro a b h
    unfold advance at h
    cases hr : readFwd m a i with
    | none => simp [hr] at h
    | some v =>
      cases v with
      | none =>
        simp only [hr] at h
        cases h
        exact Or.inl hr
      | some y =>
        simp only [hr] at h
        cases hd : deref m y with
        | none => simp [hd] at h
        | some c =>
          simp only [hd] at h
          by_cases hlt : c.value < k
          · rw [if_pos hlt] at h
            exact ih y b h
          · rw [if_neg hlt] at h
            cases h
            exact Or.inr ⟨y, c, hr, hd, hlt⟩

theorem advance_mono {m : Heap} {k : Int} {i : Nat} :
    ∀ (fuel fuel' a b : Nat), fuel ≤ fuel' → advance m k i fuel a = some b →
      advance m k i fuel' a = some b := by
  intro fuel
  induction fuel with
  | zero => intro f' a b _ h; simp [advance] at h
  | succ f ih =>
    intro f' a b hle h
    obtain ⟨g, rfl⟩ : ∃ g, f' = g + 1 := ⟨f' - 1, by omega⟩
    unfold advance at h ⊢
    cases hr : readFwd m a i with
    | none => simp [hr] at h
    | some v =>
      cases v with
      | none => simpa [hr] using h
      | some y =>
        simp only [hr] at h ⊢
        cases hd : deref m y with
        | none => simp [hd] at h
        | some c =>
          simp only [hd] at h ⊢
          by_cases hlt : c.value < k
          · rw [if_pos hlt] at h ⊢
            exact ih g y b (by omega) h
          · rw [if_neg hlt] at h ⊢
            exact h

/-- A walk of `advance` is not disturbed by a change of the memory that
keeps the headers of the live blocks, keeps lane `i` of every block but
the last one of the walk, and leaves that last block a stopping point. -/
theorem advance_stable {m m2 : Heap} {k : Int} {i b : Nat}
    (hh : ∀ p, hdr m p ≠ none → hdr m2 p = hdr m p)
    (hr : ∀ p, p ≠ b → hdr m p ≠ none → readFwd m2 p i = readFwd m p i)
    (hs : Stop m2 k i b) :
    ∀ (fuel a : Nat), advance m k i fuel a = some b → advance m2 k i fuel a = some b := by
  intro fuel
  induction fuel with
  | zero => intro a h; simp [advance] at h
  | succ f ih =>
    intro a h
    by_cases hab : a = b
    · subst hab
      exact advance_succ_of_stop hs f
    · have hstop := advance_stop _ _ _ h
      unfold advance at h ⊢
      cases hra : readFwd m a i with
      | none => simp [hra] at h
      | some v =>
        obtain ⟨ca, hca, _⟩ := readFwd_live hra
        have hlive : hdr m a ≠ none := by rw [hdr_some hca]; simp
        rw [hr a hab hlive, hra]
        cases v with
        | none =>
          simp only [hra] at h
          exact absurd (Option.some.inj h) hab
        | some y =>
          simp only [hra] at h ⊢
          cases hd : deref m y with
          | none => simp [hd] at h
          | some c =>
            simp only [hd] at h
            have hy : hdr m y ≠ none := by rw [hdr_some hd]; simp
            obtain ⟨c', hc', hv, _, _⟩ := deref_of_hdr_eq (hh y hy) hd
            simp only [hc', hv]
            by_cases hlt : c.value < k
            · rw [if_pos hlt] at h ⊢
              exact ih y h
            · rw [if_neg hlt] at h
              exact absurd (Option.some.inj h) hab

/-- Where a walk of `advance` ends: at its start or at a live block whose
value is below the key. -/
theorem advance_end {m : Heap} {k : Int} {i : Nat} :
    ∀ (fuel a b : Nat), advance m k i fuel a = some b →
      b = a ∨ ∃ c, deref m b = some c ∧ c.value < k ∧ i < c.forward.length := by
  intro fuel
  induction fuel with
  | zero => intro a b h; simp [advance] at h
  | succ f ih =>
    intro a b h
    have hstop := advance_stop _ _ _ h
    unfold advance at h
    cases hr : readFwd m a i with
    | none => simp [hr] at h
    | some v =>
      cases v with
      | none =>
        simp only [hr] at h
        exact Or.inl (Option.some.inj h).symm
      | some y =>
        simp only [hr] at h
        cases hd : deref m y with
        | none => simp [hd] at h
        | some c =>
          simp only [hd] at h
          by_cases hlt : c.value < k
          · rw [if_pos hlt] at h
            rcases ih y b h with hby | hex
            · subst hby
              right
              refine ⟨c, hd, hlt, ?_⟩
              rcases hstop with h1 | ⟨_, _, h1, _, _⟩
              · obtain ⟨c2, hc2, hl⟩ := readFwd_live h1
                rw [hd] at hc2; cases hc2; exact hl
              · obtain ⟨c2, hc2, hl⟩ := readFwd_live h1
                rw [hd] at hc2; cases hc2; exact hl
            · exact Or.inr hex
          · rw [if_neg hlt] at h
            exact Or.inl (Option.some.inj h).symm

/-! ## The array `update` and the search loops -/

theorem setUpdate_lt {upd upd' : Update} {i x : Nat} (h : setUpdate upd i x = some upd') :
    i < upd.length := by
  unfold setUpdate at h
  by_contra hlt
  rw [if_neg hlt] at h
  cases h

theorem setUpdate_eq {upd upd' : Update} {i x : Nat} (h : setUpdate upd i x = some upd') :
    upd' = upd.set i (some x) := by
  have hlt := setUpdate_lt h
  unfold setUpdate at h
  rw [if_pos hlt] at h
  exact (Option.some.inj h).symm

theorem setUpdate_length {upd upd' : Update} {i x : Nat} (h : setUpdate upd i x = some upd') :
    upd'.length = upd.length := by
  rw [setUpdate_eq h]; simp

theorem getUpdate_setUpdate {upd upd' : Update} {i x : Nat} (h : setUpdate upd i x = some upd')
    (j : Nat) : getUpdate upd' j = if j = i then some x else getUpdate upd j := by
  have hlt := setUpdate_lt h
  rw [setUpdate_eq h]
  unfold getUpdate
  by_cases hj : j = i
  · subst hj
    simp [List.getElem?_set_self hlt]
  · simp [hj, List.getElem?_set_ne (Ne.symm hj)]

theorem setUpdate_defined {upd : Update} {i : Nat} (x : Nat) (h : i < upd.length) :
    setUpdate upd i x = some (upd.set i (some x)) := by
  unfold setUpdate
  rw [if_pos h]

theorem find_update_frame {m : Heap} {k : Int} :
    ∀ (n x : Nat) (upd : Update) (xf : Nat) (updf : Update),
      find_update m k n x upd = some (xf, updf) →
      updf.length = upd.length ∧ ∀ j, n ≤ j → getUpdate updf j = getUpdate upd j := by
  intro n
  induction n with
  | zero =>
    intro x upd xf updf h
    simp only [find_update, Option.some.injEq, Prod.mk.injEq] at h
    obtain ⟨_, rfl⟩ := h
    exact ⟨rfl, fun _ _ => rfl⟩
  | succ i ih =>
    intro x upd xf updf h
    unfold find_update at h
    cases ha : advance m k i m.length x with
    | none => simp [ha] at h
    | some x' =>
      simp only [ha] at h
      cases hs : setUpdate upd i x' with
      | none => simp [hs] at h
      | some upd1 =>
        simp only [hs] at h
        obtain ⟨h1, h2⟩ := ih x' upd1 xf updf h
        refine ⟨by rw [h1, setUpdate_length hs], ?_⟩
        intro j hj
        rw [h2 j (by omega), getUpdate_setUpdate hs, if_neg (by omega)]

/-- What `find_update` leaves behind: for every lane below `n`, the
entry of `update` is a stopping point of that lane, and it is the
starting block or a live block whose value is below the key; the block
returned is the entry of lane 0. -/
theorem find_update_ends {m : Heap} {k : Int} :
    ∀ (n x : Nat) (upd : Update) (xf : Nat) (updf : Update),
      find_update m k n x upd = some (xf, updf) →
      (xf = x ∨ ∃ c, deref m xf = some c ∧ c.value < k) ∧
      (0 < n → getUpdate updf 0 = some xf) ∧
      ∀ i, i < n → ∃ b, getUpdate updf i = some b ∧ Stop m k i b ∧
        (b = x ∨ ∃ c, deref m b = some c ∧ c.value < k) := by
  intro n
  induction n with
  | zero =>
    intro x upd xf updf h
    simp only [find_update, Option.some.injEq, Prod.mk.injEq] at h
    obtain ⟨rfl, rfl⟩ := h
    exact ⟨Or.inl rfl, fun h => absurd h (by omega), fun i hi => absurd hi (by omega)⟩
  | succ i ih =>
    intro x upd xf updf h
    unfold find_update at h
    cases ha : advance m k i m.length x with
    | none => simp [ha] at h
    | some x' =>
      simp only [ha] at h
      cases hs : setUpdate upd i x' with
      | none => simp [hs] at h
      | some upd1 =>
        simp only [hs] at h
        obtain ⟨h1, h2, h3⟩ := ih x' upd1 xf updf h
        obtain ⟨_, hfr⟩ := find_update_frame _ _ _ _ _ h
        have hx' : x' = x ∨ ∃ c, deref m x' = some c ∧ c.value < k := by
          rcases advance_end _ _ _ ha with h | ⟨c, hc, hv, _⟩
          · exact Or.inl h
          · exact Or.inr ⟨c, hc, hv⟩
        have hi : getUpdate updf i = some x' := by
          rw [hfr i (le_refl _), getUpdate_setUpdate hs, if_pos rfl]
        refine ⟨?_, ?_, ?_⟩
        · rcases h1 with h1 | h1
          · rw [h1]; exact hx'
          · exact Or.inr h1
        · intro _
          by_cases hi0 : 0 < i
          · exact h2 hi0
          · have hi0' : i = 0 := by omega
            subst hi0'
            simp only [find_update, Option.some.injEq, Prod.mk.injEq] at h
            rw [hi, h.1]
        · intro j hj
          by_cases hji : j < i
          · obtain ⟨b, hb1, hb2, hb3⟩ := h3 j hji
            refine ⟨b, hb1, hb2, ?_⟩
            rcases hb3 with hb3 | hb3
            · rw [hb3]; exact hx'
            · exact Or.inr hb3
          · have hji' : j = i := by omega
            subst hji'
            exact ⟨x', hi, advance_stop _ _ _ ha, hx'⟩

theorem find_update_search_loop {m : Heap} {k : Int} :
    ∀ (n x : Nat) (upd : Update) (xf : Nat) (updf : Update),
      find_update m k n x upd = some (xf, updf) → search_loop m k n x = some xf := by
  intro n
  induction n with
  | zero =>
    intro x upd xf updf h
    simp only [find_update, Option.some.injEq, Prod.mk.injEq] at h
    simp [search_loop, h.1]
  | succ i ih =>
    intro x upd xf updf h
    unfold find_update at h
    unfold search_loop
    cases ha : advance m k i m.length x with
    | none => simp [ha] at h
    | some x' =>
      simp only [ha] at h ⊢
      cases hs : setUpdate upd i x' with
      | none => simp [hs] at h
      | some upd1 =>
        simp only [hs] at h
        exact ih x' upd1 xf updf h

/-- The search loop of `insert` and `delete` follows the same path after
a change of the memory that keeps the headers of the live blocks and, on
every lane, keeps the pointers of all blocks but the recorded one, which
stays a stopping point. -/
theorem find_update_stable {m m2 : Heap} {k : Int}
    (hlen : m.length ≤ m2.length)
    (hh : ∀ p, hdr m p ≠ none → hdr m2 p = hdr m p) :
    ∀ (n x : Nat) (upd : Update) (xf : Nat) (updf : Update),
      find_update m k n x upd = some (xf, updf) →
      (∀ i, i < n → ∀ b, getUpdate updf i = some b →
        Stop m2 k i b ∧ ∀ p, p ≠ b → hdr m p ≠ none → readFwd m2 p i = readFwd m p i) →
      ∀ upd2 : Update, upd2.length = upd.length →
        ∃ u, find_update m2 k n x upd2 = some (xf, u) := by
  intro n
  induction n with
  | zero =>
    intro x upd xf updf h _ upd2 _
    simp only [find_update, Option.some.injEq, Prod.mk.injEq] at h
    exact ⟨upd2, by simp [find_update, h.1]⟩
  | succ i ih =>
    intro x upd xf updf h hst upd2 hl2
    unfold find_update at h
    cases ha : advance m k i m.length x with
    | none => simp [ha] at h
    | some x' =>
      simp only [ha] at h
      cases hs : setUpdate upd i x' with
      | none => simp [hs] at h
      | some upd1 =>
        simp only [hs] at h
        obtain ⟨_, hfr⟩ := find_update_frame _ _ _ _ _ h
        have hi : getUpdate updf i = some x' := by
          rw [hfr i (le_refl _), getUpdate_setUpdate hs, if_pos rfl]
        obtain ⟨hstop, hrd⟩ := hst i (by omega) x' hi
        have ha2 : advance m2 k i m2.length x = some x' :=
          advance_mono _ _ _ _ hlen (advance_stable hh hrd hstop _ _ ha)
        have hlt : i < upd2.length := by rw [hl2]; exact setUpdate_lt hs
        obtain ⟨u, hu⟩ := ih x' upd1 xf updf h (fun j hj b hb => hst j (by omega) b hb)
          (upd2.set i (some x')) (by simp [hl2, setUpdate_length hs])
        refine ⟨u, ?_⟩
        unfold find_update
        simp only [ha2, setUpdate_defined x' hlt]
        exact hu

/-! ## The linking loop of `insert` -/

theorem link_step_spec {upd : Update} {x : Nat} {m m' : Heap} {i : Nat}
    (h : link_step upd x m i = some m') :
    ∃ u f, getUpdate upd i = some u ∧ readFwd m u i = some f ∧
      m'.length = m.length ∧ (∀ q, hdr m' q = hdr m q) ∧
      ∀ q j, readFwd m' q j =
        if q = u ∧ j = i then some (some x)
        else if q = x ∧ j = i then some f else readFwd m q j := by
  unfold link_step at h
  cases hu : getUpdate upd i with
  | none => simp [hu] at h
  | some u =>
    simp only [hu] at h
    cases hf : readFwd m u i with
    | none => simp [hf] at h
    | some f =>
      simp only [hf] at h
      cases hw : writeFwd m x i f with
      | none => simp [hw] at h
      | some m1 =>
        simp only [hw] at h
        refine ⟨u, f, rfl, hf, ?_, ?_, ?_⟩
        · rw [writeFwd_length h, writeFwd_length hw]
        · intro q; rw [writeFwd_hdr h, writeFwd_hdr hw]
        · intro q j
          rw [writeFwd_readFwd h, writeFwd_readFwd hw]

theorem link_loop_spec {upd : Update} {x : Nat} :
    ∀ (l : List Nat) (m m' : Heap), link_loop upd x l m = some m' →
      m'.length = m.length ∧ (∀ q, hdr m' q = hdr m q) ∧
      (∀ q j, j ∉ l → readFwd m' q j = readFwd m q j) ∧
      (∀ q j, q ≠ x → readFwd m' q j =
        if j ∈ l ∧ getUpdate upd j = some q then some (some x) else readFwd m q j) := by
  intro l
  induction l with
  | nil =>
    intro m m' h
    simp only [link_loop, Option.some.injEq] at h
    subst h
    simp
  | cons i rest ih =>
    intro m m' h
    unfold link_loop at h
    cases hs : link_step upd x m i with
    | none => simp [hs] at h
    | some m1 =>
      simp only [hs] at h
      obtain ⟨u, f, hu, hf, hl1, hh1, hr1⟩ := link_step_spec hs
      obtain ⟨hl2, hh2, hr2, hr3⟩ := ih m1 m' h
      refine ⟨by rw [hl2, hl1], fun q => by rw [hh2, hh1], ?_, ?_⟩
      · intro q j hj
        simp only [List.mem_cons, not_or] at hj
        rw [hr2 q j hj.2, hr1, if_neg (by tauto), if_neg (by tauto)]
      · intro q j hq
        have e0 : ¬ (q = x ∧ j = i) := fun hh => hq hh.1
        rw [hr3 q j hq, hr1, if_neg e0]
        by_cases hg : getUpdate upd j = some q
        · by_cases hjr : j ∈ rest
          · rw [if_pos ⟨hjr, hg⟩, if_pos ⟨List.mem_cons_of_mem _ hjr, hg⟩]
          · have e1 : ¬ (j ∈ rest ∧ getUpdate upd j = some q) := fun hh => hjr hh.1
            rw [if_neg e1]
            by_cases hji : j = i
            · subst hji
              have hqu : q = u := by
                rw [hu] at hg
                exact (Option.some.inj hg).symm
              rw [if_pos ⟨hqu, rfl⟩, if_pos ⟨List.mem_cons_self _ _, hg⟩]
            · have e2 : ¬ (q = u ∧ j = i) := fun hh => hji hh.2
              have e3 : ¬ (j ∈ i :: rest ∧ getUpdate upd j = some q) := by
                rintro ⟨h1, _⟩
                rcases List.mem_cons.mp h1 with h1 | h1
                · exact hji h1
                · exact hjr h1
              rw [if_neg e2, if_neg e3]
        · have e1 : ¬ (j ∈ rest ∧ getUpdate upd j = some q) := fun hh => hg hh.2
          have e2 : ¬ (j ∈ i :: rest ∧ getUpdate upd j = some q) := fun hh => hg hh.2
          have e3 : ¬ (q = u ∧ j = i) := by
            rintro ⟨h1, h2⟩
            apply hg
            rw [h2, hu, h1]
          rw [if_neg e1, if_neg e2, if_neg e3]

/-- The lanes of the new block after the linking loop: on each lane it
was linked into, the new block points where its predecessor pointed. -/
theorem link_loop_new {upd : Update} {x : Nat} :
    ∀ (l : List Nat) (m m' : Heap), link_loop upd x l m = some m' → l.Nodup →
      (∀ j, j ∈ l → getUpdate upd j ≠ some x) →
      ∀ j, j ∈ l → ∃ u, getUpdate upd j = some u ∧ readFwd m' x j = readFwd m u j ∧
        (readFwd m u j).isSome := by
  intro l
  induction l with
  | nil => intro m m' _ _ _ j hj; simp at hj
  | cons i rest ih =>
    intro m m' h hnd hne j hj
    unfold link_loop at h
    cases hs : link_step upd x m i with
    | none => simp [hs] at h
    | some m1 =>
      simp only [hs] at h
      obtain ⟨u, f, hu, hf, _, _, hr1⟩ := link_step_spec hs
      have hux : u ≠ x := by
        intro hux
        apply hne i (List.mem_cons_self _ _)
        rw [hu, hux]
      rw [List.nodup_cons] at hnd
      by_cases hji : j = i
      · subst hji
        refine ⟨u, hu, ?_, by simp [hf]⟩
        obtain ⟨_, _, hr2, _⟩ := link_loop_spec rest m1 m' h
        rw [hr2 x j hnd.1, hr1, if_neg (by intro hh; exact hux hh.1.symm), if_pos ⟨rfl, rfl⟩, hf]
      · have hjr : j ∈ rest := by
          simp only [List.mem_cons] at hj
          tauto
        obtain ⟨w, hw1, hw2, hw3⟩ := ih m1 m' h hnd.2
          (fun j hj => hne j (List.mem_cons_of_mem _ hj)) j hjr
        have : readFwd m1 w j = readFwd m w j := by
          rw [hr1, if_neg (by tauto), if_neg (by tauto)]
        refine ⟨w, hw1, by rw [hw2, this], by rw [← this]; exact hw3⟩

/-! ## Taking `insert` apart -/

theorem holds_key_true {m : Heap} {x0 : Option Nat} {k : Int}
    (h : holds_key m x0 k = some true) :
    ∃ y c, x0 = some y ∧ deref m y = some c ∧ c.value = k := by
  unfold holds_key at h
  cases x0 with
  | none => simp at h
  | some y =>
    cases hd : deref m y with
    | none => simp [hd] at h
    | some c =>
      simp only [hd, Option.some.injEq, decide_eq_true_eq] at h
      exact ⟨y, c, rfl, hd, h⟩

theorem holds_key_false {m : Heap} {x0 : Option Nat} {k : Int}
    (h : holds_key m x0 k = some false) :
    x0 = none ∨ ∃ y c, x0 = some y ∧ deref m y = some c ∧ c.value ≠ k := by
  unfold holds_key at h
  cases x0 with
  | none => exact Or.inl rfl
  | some y =>
    cases hd : deref m y with
    | none => simp [hd] at h
    | some c =>
      simp only [hd, Option.some.injEq, decide_eq_false_iff_not] at h
      exact Or.inr ⟨y, c, rfl, hd, h⟩

theorem insert_ok_inv {s s' : State} {k rl : Int}
    (h : insert s k rl = some (ret_codes.OK, s')) :
    ∃ xf updf x0 level' lvl upd' m2,
      find_update s.mem k s.list.level.toNat s.list.head update_init = some (xf, updf) ∧
      readFwd s.mem xf 0 = some x0 ∧ holds_key s.mem x0 k = some false ∧
      grow s.list rl updf = some (level', lvl, upd') ∧ 0 ≤ lvl ∧
      link_loop upd' s.mem.length (List.range lvl.toNat)
        (s.mem ++ [some (new_cell lvl k)]) = some m2 ∧
      s' = { mem := m2, list := { s.list with level := level' } } := by
  unfold insert at h
  cases hf : find_update s.mem k s.list.level.toNat s.list.head update_init with
  | none => simp [hf] at h
  | some r =>
    obtain ⟨xf, updf⟩ := r
    simp only [hf] at h
    cases hr : readFwd s.mem xf 0 with
    | none => simp [hr] at h
    | some x0 =>
      simp only [hr] at h
      cases hk : holds_key s.mem x0 k with
      | none => simp [hk] at h
      | some b =>
        cases b with
        | true => simp [hk] at h
        | false =>
          simp only [hk] at h
          cases hg : grow s.list rl updf with
          | none => simp [hg] at h
          | some g =>
            obtain ⟨level', lvl, upd'⟩ := g
            simp only [hg] at h
            unfold make_node at h
            by_cases hl : lvl < 0
            · simp [hl] at h
            · simp only [hl, if_false] at h
              cases hll : link_loop upd' s.mem.length (List.range lvl.toNat)
                  (s.mem ++ [some (new_cell lvl k)]) with
              | none => simp [hll] at h
              | some m2 =>
                simp only [hll, Option.some.injEq, Prod.mk.injEq, true_and] at h
                exact ⟨xf, updf, x0, level', lvl, upd', m2, rfl, hr, hk, hg,
                  by omega, hll, h.symm⟩

theorem insert_dup_inv {s s' : State} {k rl : Int}
    (h : insert s k rl = some (ret_codes.ERROR_DUPLICATE, s')) :
    s' = s ∧ ∃ xf updf x0,
      find_update s.mem k s.list.level.toNat s.list.head update_init = some (xf, updf) ∧
      readFwd s.mem xf 0 = some x0 ∧ holds_key s.mem x0 k = some true := by
  unfold insert at h
  cases hf : find_update s.mem k s.list.level.toNat s.list.head update_init with
  | none => simp [hf] at h
  | some r =>
    obtain ⟨xf, updf⟩ := r
    simp only [hf] at h
    cases hr : readFwd s.mem xf 0 with
    | none => simp [hr] at h
    | some x0 =>
      simp only [hr] at h
      cases hk : holds_key s.mem x0 k with
      | none => simp [hk] at h
      | some b =>
        cases b with
        | true =>
          simp only [hk, Option.some.injEq, Prod.mk.injEq, true_and] at h
          exact ⟨h.symm, xf, updf, x0, rfl, hr, hk⟩
        | false =>
          simp only [hk] at h
          cases hg : grow s.list rl updf with
          | none => simp [hg] at h
          | some g =>
            obtain ⟨level', lvl, upd'⟩ := g
            simp only [hg] at h
            cases hm : make_node s.mem lvl k with
            | none => simp [hm] at h
            | some mn =>
              obtain ⟨m1, n⟩ := mn
              simp only [hm] at h
              cases hll : link_loop upd' n (List.range lvl.toNat) m1 with
              | none => simp [hll] at h
              | some m2 => simp [hll] at h

theorem insert_code {s s' : State} {k rl : Int} {r : ret_codes}
    (h : insert s k rl = some (r, s')) :
    r = ret_codes.OK ∨ r = ret_codes.ERROR_DUPLICATE := by
  unfold insert at h
  cases hf : find_update s.mem k s.list.level.toNat s.list.head update_init with
  | none => simp [hf] at h
  | some r =>
    obtain ⟨xf, updf⟩ := r
    simp only [hf] at h
    cases hr : readFwd s.mem xf 0 with
    | none => simp [hr] at h
    | some x0 =>
      simp only [hr] at h
      cases hk : holds_key s.mem x0 k with
      | none => simp [hk] at h
      | some b =>
        cases b with
        | true =>
          simp only [hk, Option.some.injEq, Prod.mk.injEq] at h
          exact Or.inr h.1.symm
        | false =>
          simp only [hk] at h
          cases hg : grow s.list rl updf with
          | none => simp [hg] at h
          | some g =>
            obtain ⟨level', lvl, upd'⟩ := g
            simp only [hg] at h
            cases hm : make_node s.mem lvl k with
            | none => simp [hm] at h
            | some mn =>
              obtain ⟨m1, n⟩ := mn
              simp only [hm] at h
              cases hll : link_loop upd' n (List.range lvl.toNat) m1 with
              | none => simp [hll] at h
              | some m2 =>
                simp only [hll, Option.some.injEq, Prod.mk.injEq] at h
                exact Or.inl h.1.symm

theorem insert_dup_of {s : State} {k : Int} {xf : Nat} {updf : Update} {x0 : Option Nat}
    (rl : Int)
    (hf : find_update s.mem k s.list.level.toNat s.list.head update_init = some (xf, updf))
    (hr : readFwd s.mem xf 0 = some x0) (hk : holds_key s.mem x0 k = some true) :
    insert s k rl = some (ret_codes.ERROR_DUPLICATE, s) := by
  unfold insert
  simp only [hf, hr, hk]

theorem grow_spec {list : slist} {rl level' lvl : Int} {upd upd' : Update}
    (h : grow list rl upd = some (level', lvl, upd')) :
    (list.level < rl ∧ 0 ≤ list.level ∧ level' = list.level + 1 ∧ lvl = list.level + 1 ∧
        setUpdate upd list.level.toNat list.head = some upd') ∨
      (rl ≤ list.level ∧ level' = list.level ∧ lvl = rl ∧ upd' = upd) := by
  unfold grow at h
  by_cases hg : rl > list.level
  · rw [if_pos hg] at h
    by_cases hn : list.level + 1 - 1 < 0
    · rw [if_pos hn] at h; cases h
    · rw [if_neg hn] at h
      have e : list.level + 1 - 1 = list.level := by omega
      rw [e] at h
      cases hs : setUpdate upd list.level.toNat list.head with
      | none => simp [hs] at h
      | some u =>
        simp only [hs, Option.some.injEq, Prod.mk.injEq] at h
        obtain ⟨h1, h2, h3⟩ := h
        exact Or.inl ⟨hg, by omega, h1.symm, h2.symm, by rw [h3]⟩
  · rw [if_neg hg] at h
    simp only [Option.some.injEq, Prod.mk.injEq] at h
    obtain ⟨h1, h2, h3⟩ := h
    exact Or.inr ⟨by omega, h1.symm, h2.symm, h3.symm⟩

theorem readFwd_append_left (m l : Heap) (p j : Nat) (h : p < m.length) :
    readFwd (m ++ l) p j = readFwd m p j := by
  unfold readFwd
  rw [deref_append_left m l p h]

theorem hdr_append_left (m l : Heap) (p : Nat) (h : p < m.length) :
    hdr (m ++ l) p = hdr m p := by
  unfold hdr
  rw [deref_append_left m l p h]

theorem hdr_live_lt {m : Heap} {p : Nat} (h : hdr m p ≠ none) : p < m.length := by
  cases hd : deref m p with
  | none => exact absurd (hdr_none.mpr hd) h
  | some c => exact deref_lt hd

theorem advance_start_live {m : Heap} {k : Int} {i fuel a b : Nat}
    (h : advance m k i fuel a = some b) : ∃ c, deref m a = some c := by
  cases fuel with
  | zero => simp [advance] at h
  | succ f =>
    unfold advance at h
    cases hr : readFwd m a i with
    | none => simp [hr] at h
    | some v =>
      obtain ⟨c, hc, _⟩ := readFwd_live hr
      exact ⟨c, hc⟩

theorem find_update_start_live {m : Heap} {k : Int} {n x xf : Nat} {upd updf : Update}
    (hn : 0 < n) (h : find_update m k n x upd = some (xf, updf)) : ∃ c, deref m x = some c := by
  obtain ⟨i, rfl⟩ : ∃ i, n = i + 1 := ⟨n - 1, by omega⟩
  unfold find_update at h
  cases ha : advance m k i m.length x with
  | none => simp [ha] at h
  | some x' => exact advance_start_live ha

theorem update_init_length : update_init.length = MAXLEVEL := by
  simp [update_init]

/-- After a successful `insert` the search loop for the same key ends
right before the new block, on every lane the block was linked into. -/
theorem insert_ok_path {s s' : State} {k rl : Int} (hrl : 1 ≤ rl)
    (h : insert s k rl = some (ret_codes.OK, s')) :
    ∃ xf u c, find_update s'.mem k s'.list.level.toNat s'.list.head update_init = some (xf, u) ∧
      readFwd s'.mem xf 0 = some (some s.mem.length) ∧
      deref s'.mem s.mem.length = some c ∧ c.value = k ∧ deref s.mem s.mem.length = none := by
  obtain ⟨xf, updf, x0, level', lvl, upd', m2, hf, hr, hk, hg, hl0, hll, rfl⟩ := insert_ok_inv h
  obtain ⟨hlen2, hhdr2, _, hrd2⟩ := link_loop_spec _ _ _ hll
  obtain ⟨hxf, hz, hends⟩ := find_update_ends _ _ _ _ _ hf
  obtain ⟨hulen, hufr⟩ := find_update_frame _ _ _ _ _ hf
  -- the new block
  have hnew : ∃ c, deref m2 s.mem.length = some c ∧ c.value = k := by
    have e : hdr m2 s.mem.length = some (k, lvl, (lvl.toNat + 1)) := by
      rw [hhdr2, hdr_some (deref_append_new s.mem (new_cell lvl k))]
      simp [new_cell]
    obtain ⟨c, hc, hv, _⟩ := hdr_eq_some e
    exact ⟨c, hc, hv⟩
  obtain ⟨cn, hcn, hvn⟩ := hnew
  -- live blocks keep their header
  have hh : ∀ p, hdr s.mem p ≠ none → hdr m2 p = hdr s.mem p := by
    intro p hp
    rw [hhdr2, hdr_append_left _ _ _ (hdr_live_lt hp)]
  -- the level drawn and the entries of `update`
  have hlvl : 1 ≤ lvl ∧ (∀ i, i < s.list.level.toNat → getUpdate upd' i = getUpdate updf i) := by
    rcases grow_spec hg with ⟨_, h0, _, h2, h3⟩ | ⟨_, _, h2, h3⟩
    · refine ⟨by omega, ?_⟩
      intro i hi
      rw [getUpdate_setUpdate h3, if_neg (by omega)]
    · exact ⟨by omega, fun i _ => by rw [h3]⟩
  have hrange : ∀ i, i ∈ List.range lvl.toNat ↔ i < lvl.toNat := fun i => List.mem_range
  -- every lane below the old level is undisturbed up to the recorded block
  have hst : ∀ i, i < s.list.level.toNat → ∀ b, getUpdate updf i = some b →
      Stop m2 k i b ∧ ∀ p, p ≠ b → hdr s.mem p ≠ none → readFwd m2 p i = readFwd s.mem p i := by
    intro i hi b hb
    obtain ⟨b', hb', hstop, _⟩ := hends i hi
    rw [hb] at hb'
    cases hb'
    have hblive : b < s.mem.length := by
      rcases hstop with h1 | ⟨_, _, h1, _, _⟩
      · obtain ⟨c, hc, _⟩ := readFwd_live h1
        exact deref_lt hc
      · obtain ⟨c, hc, _⟩ := readFwd_live h1
        exact deref_lt hc
    constructor
    · have e := hrd2 b i (by omega)
      by_cases hc : i ∈ List.range lvl.toNat ∧ getUpdate upd' i = some b
      · rw [if_pos hc] at e
        exact Or.inr ⟨s.mem.length, cn, e, hcn, by omega⟩
      · rw [if_neg hc, readFwd_append_left _ _ _ _ hblive] at e
        rcases hstop with h1 | ⟨y, c, h1, h2, h3⟩
        · exact Or.inl (by rw [e, h1])
        · have hy : hdr s.mem y ≠ none := by rw [hdr_some h2]; simp
          obtain ⟨c', hc', hv, _, _⟩ := deref_of_hdr_eq (hh y hy) h2
          exact Or.inr ⟨y, c', by rw [e, h1], hc', by rw [hv]; exact h3⟩
    · intro p hpb hp
      have hplt := hdr_live_lt hp
      rw [hrd2 p i (by omega), if_neg, readFwd_append_left _ _ _ _ hplt]
      rintro ⟨_, h2⟩
      rw [hlvl.2 i hi, hb] at h2
      exact hpb (Option.some.inj h2).symm
  have hlenle : s.mem.length ≤ m2.length := by
    rw [hlen2]; simp
  have hxflive : xf < s.mem.length := by
    obtain ⟨c, hc, _⟩ := readFwd_live hr
    exact deref_lt hc
  -- lane 0 of the block the loop ends at
  have hxf0 : readFwd m2 xf 0 = some (some s.mem.length) := by
    rw [hrd2 xf 0 (by omega), if_pos]
    refine ⟨(hrange 0).mpr (by omega), ?_⟩
    by_cases hN : 0 < s.list.level.toNat
    · rw [hlvl.2 0 hN]; exact hz hN
    · have hN0 : s.list.level.toNat = 0 := by omega
      rw [hN0] at hf
      simp only [find_update, Option.some.injEq, Prod.mk.injEq] at hf
      rcases grow_spec hg with ⟨_, h0, _, _, h3⟩ | ⟨h1, _, _, _⟩
      · rw [hN0] at h3
        rw [getUpdate_setUpdate h3, if_pos rfl, hf.1]
      · omega
  refine ⟨xf, ?_⟩
  rcases grow_spec hg with ⟨h1, h0, hl', hlv, h3⟩ | ⟨_, hl', _, _⟩
  · -- the list grew by one lane, whose only block is the new one
    have hN : level'.toNat = s.list.level.toNat + 1 := by omega
    have hNlt : s.list.level.toNat < update_init.length := by
      rw [← hulen]; exact setUpdate_lt h3
    obtain ⟨u, hu⟩ := find_update_stable hlenle hh _ _ _ _ _ hf hst
      (update_init.set s.list.level.toNat (some s.list.head)) (by simp)
    have hheadlive : s.list.head < s.mem.length := by
      by_cases hN0 : 0 < s.list.level.toNat
      · obtain ⟨c, hc⟩ := find_update_start_live hN0 hf
        exact deref_lt hc
      · have hN0' : s.list.level.toNat = 0 := by omega
        rw [hN0'] at hf
        simp only [find_update, Option.some.injEq, Prod.mk.injEq] at hf
        rw [hf.1]; exact hxflive
    have hstop : Stop m2 k s.list.level.toNat s.list.head := by
      refine Or.inr ⟨s.mem.length, cn, ?_, hcn, by omega⟩
      rw [hrd2 _ _ (by omega), if_pos]
      exact ⟨(hrange _).mpr (by omega), by rw [getUpdate_setUpdate h3, if_pos rfl]⟩
    refine ⟨u, cn, ?_, hxf0, hcn, hvn, deref_length _⟩
    show find_update m2 k level'.toNat s.list.head update_init = some (xf, u)
    rw [hN]
    unfold find_update
    have hadv : advance m2 k s.list.level.toNat m2.length s.list.head = some s.list.head := by
      rw [hlen2, List.length_append]
      exact advance_succ_of_stop hstop _
    simp only [hadv, setUpdate_defined s.list.head hNlt]
    exact hu
  · obtain ⟨u, hu⟩ := find_update_stable hlenle hh _ _ _ _ _ hf hst update_init rfl
    refine ⟨u, cn, ?_, hxf0, hcn, hvn, deref_length _⟩
    show find_update m2 k level'.toNat s.list.head update_init = some (xf, u)
    rw [hl']
    exact hu

theorem toNat_succ_lt {j : Nat} {a b : Int} (h0 : 0 ≤ a) (hb : b = a + 1) (hj : j < b.toNat)
    (hne : j ≠ a.toNat) : j < a.toNat := by
  omega

theorem toNat_le_lt {j : Nat} {a b c : Int} (h1 : c ≤ a) (hb : b = c) (hj : j < b.toNat) :
    j < a.toNat := by
  omega

/-- The memory after a successful `insert`, block by block and lane by
lane. -/
theorem insert_ok_mem {s s' : State} {k rl : Int} (hrl : 1 ≤ rl)
    (h : insert s k rl = some (ret_codes.OK, s')) :
    ∃ xf updf x0 lvl upd',
      find_update s.mem k s.list.level.toNat s.list.head update_init = some (xf, updf) ∧
      readFwd s.mem xf 0 = some x0 ∧ holds_key s.mem x0 k = some false ∧
      grow s.list rl updf = some (s'.list.level, lvl, upd') ∧ 1 ≤ lvl ∧
      s'.list.head = s.list.head ∧ s'.mem.length = s.mem.length + 1 ∧
      (∀ q, q < s.mem.length → hdr s'.mem q = hdr s.mem q) ∧
      hdr s'.mem s.mem.length = some (k, lvl, lvl.toNat + 1) ∧
      (∀ q j, q < s.mem.length → readFwd s'.mem q j =
        if j < lvl.toNat ∧ getUpdate upd' j = some q then some (some s.mem.length)
        else readFwd s.mem q j) ∧
      (∀ j, j < lvl.toNat → ∃ u, getUpdate upd' j = some u ∧ u < s.mem.length ∧
        readFwd s'.mem s.mem.length j = readFwd s.mem u j ∧ (readFwd s.mem u j).isSome) ∧
      getUpdate upd' 0 = some xf ∧ s.list.head < s.mem.length := by
  obtain ⟨xf, updf, x0, level', lvl, upd', m2, hf, hr, hk, hg, hl0, hll, rfl⟩ := insert_ok_inv h
  obtain ⟨hlen2, hhdr2, _, hrd2⟩ := link_loop_spec _ _ _ hll
  obtain ⟨hxf, hz, hends⟩ := find_update_ends _ _ _ _ _ hf
  obtain ⟨hulen, hufr⟩ := find_update_frame _ _ _ _ _ hf
  have hrange : ∀ i, i ∈ List.range lvl.toNat ↔ i < lvl.toNat := fun i => List.mem_range
  have hxflive : xf < s.mem.length := by
    obtain ⟨c, hc, _⟩ := readFwd_live hr
    exact deref_lt hc
  have hheadlive : s.list.head < s.mem.length := by
    by_cases hN0 : 0 < s.list.level.toNat
    · obtain ⟨c, hc⟩ := find_update_start_live hN0 hf
      exact deref_lt hc
    · have hN0' : s.list.level.toNat = 0 := by omega
      rw [hN0'] at hf
      simp only [find_update, Option.some.injEq, Prod.mk.injEq] at hf
      rw [hf.1]; exact hxflive
  have hlvl : 1 ≤ lvl := by
    rcases grow_spec hg with ⟨_, h0, _, h2, h3⟩ | ⟨_, _, h2, h3⟩ <;> omega
  -- the entries of `update` used by the linking loop are live blocks
  have hupd : ∀ j, j < lvl.toNat → ∃ u, getUpdate upd' j = some u ∧ u < s.mem.length := by
    intro j hj
    have hold : j < s.list.level.toNat → ∃ u, getUpdate updf j = some u ∧ u < s.mem.length := by
      intro hjn
      obtain ⟨b, hb, hstop, _⟩ := hends j hjn
      refine ⟨b, hb, ?_⟩
      rcases hstop with h1 | ⟨_, _, h1, _, _⟩
      · obtain ⟨c, hc, _⟩ := readFwd_live h1
        exact deref_lt hc
      · obtain ⟨c, hc, _⟩ := readFwd_live h1
        exact deref_lt hc
    rcases grow_spec hg with ⟨_, h0, _, h2, h3⟩ | ⟨h1, _, h2, h3⟩
    · by_cases hjn : j = s.list.level.toNat
      · exact ⟨s.list.head, by rw [getUpdate_setUpdate h3, if_pos hjn], hheadlive⟩
      · obtain ⟨u, hu1, hu2⟩ := hold (toNat_succ_lt h0 h2 hj hjn)
        exact ⟨u, by rw [getUpdate_setUpdate h3, if_neg hjn]; exact hu1, hu2⟩
    · rw [h3]
      exact hold (toNat_le_lt h1 h2 hj)
  have hxf0 : getUpdate upd' 0 = some xf := by
    by_cases hN : 0 < s.list.level.toNat
    · rcases grow_spec hg with ⟨_, h0, _, _, h3⟩ | ⟨_, _, _, h3⟩
      · rw [getUpdate_setUpdate h3, if_neg (by omega)]; exact hz hN
      · rw [h3]; exact hz hN
    · have hN0 : s.list.level.toNat = 0 := by omega
      rw [hN0] at hf
      simp only [find_update, Option.some.injEq, Prod.mk.injEq] at hf
      rcases grow_spec hg with ⟨_, h0, _, _, h3⟩ | ⟨h1, _, _, _⟩
      · rw [hN0] at h3
        rw [getUpdate_setUpdate h3, if_pos rfl, hf.1]
      · omega
  refine ⟨xf, updf, x0, lvl, upd', hf, hr, hk, hg, hlvl, rfl, ?_, ?_, ?_, ?_, ?_, hxf0, hheadlive⟩
  · show m2.length = s.mem.length + 1
    rw [hlen2]; simp
  · intro q hq
    show hdr m2 q = hdr s.mem q
    rw [hhdr2, hdr_append_left _ _ _ hq]
  · show hdr m2 s.mem.length = _
    rw [hhdr2, hdr_some (deref_append_new s.mem (new_cell lvl k))]
    simp [new_cell]
  · intro q j hq
    show readFwd m2 q j = _
    rw [hrd2 q j (by omega), readFwd_append_left _ _ _ _ hq]
    simp only [hrange]
  · intro j hj
    have hne : ∀ j, j ∈ List.range lvl.toNat → getUpdate upd' j ≠ some s.mem.length := by
      intro j hj hc
      obtain ⟨u, hu1, hu2⟩ := hupd j ((hrange j).mp hj)
      rw [hu1] at hc
      have e : u = s.mem.length := Option.some.inj hc
      omega
    obtain ⟨u, hu1, hu2, hu3⟩ := link_loop_new _ _ _ hll (List.nodup_range _) hne j ((hrange j).mpr hj)
    obtain ⟨u', hu1', hu2'⟩ := hupd j hj
    rw [hu1] at hu1'
    cases hu1'
    rw [readFwd_append_left _ _ _ _ hu2'] at hu2 hu3
    exact ⟨u, hu1, hu2', hu2, hu3⟩

/-! ## Lane 0 -/

theorem Path_append {m : Heap} {x : Nat} {e : Option Nat} :
    ∀ (l1 l2 : List Nat) (p : Nat),
      Path m p (l1 ++ x :: l2) e ↔ Path m p l1 (some x) ∧ Path m x l2 e := by
  intro l1
  induction l1 with
  | nil => intro l2 p; simp [Path]
  | cons a r ih =>
    intro l2 p
    show (readFwd m p 0 = some (some a) ∧ Path m a (r ++ x :: l2) e) ↔
      (readFwd m p 0 = some (some a) ∧ Path m a r (some x)) ∧ Path m x l2 e
    rw [ih l2 a]
    tauto

theorem Path_congr {m m2 : Heap} {e : Option Nat} :
    ∀ (l : List Nat) (p : Nat), (∀ q, q ∈ p :: l → readFwd m2 q 0 = readFwd m q 0) →
      Path m p l e → Path m2 p l e := by
  intro l
  induction l with
  | nil =>
    intro p hq h
    simp only [Path] at h ⊢
    rw [hq p (List.mem_cons_self _ _)]; exact h
  | cons a r ih =>
    intro p hq h
    simp only [Path] at h ⊢
    refine ⟨by rw [hq p (List.mem_cons_self _ _)]; exact h.1, ?_⟩
    exact ih a (fun q hq' => hq q (List.mem_cons_of_mem _ hq')) h.2

theorem Path_swap {m m2 : Heap} {e : Option Nat} {x x2 : Nat} (l : List Nat)
    (hx : readFwd m2 x2 0 = readFwd m x 0)
    (hq : ∀ q, q ∈ l → readFwd m2 q 0 = readFwd m q 0)
    (h : Path m x l e) : Path m2 x2 l e := by
  cases l with
  | nil =>
    simp only [Path] at h ⊢
    rw [hx]; exact h
  | cons a r =>
    simp only [Path] at h ⊢
    exact ⟨by rw [hx]; exact h.1, Path_congr r a hq h.2⟩

theorem Path_live {m : Heap} {e : Option Nat} :
    ∀ (l : List Nat) (p : Nat), Path m p l e → ∀ q, q ∈ p :: l → hdr m q ≠ none := by
  intro l
  induction l with
  | nil =>
    intro p h q hq
    simp only [Path] at h
    simp only [List.mem_singleton] at hq
    subst hq
    obtain ⟨c, hc, _⟩ := readFwd_live h
    rw [hdr_some hc]; simp
  | cons a r ih =>
    intro p h q hq
    simp only [Path] at h
    rcases List.mem_cons.mp hq with rfl | hq
    · obtain ⟨c, hc, _⟩ := readFwd_live h.1
      rw [hdr_some hc]; simp
    · exact ih a h.2 q hq

/-- Cutting lane 0 at one of its blocks `x`: the part up to `x`, the part
after it, and how to put another tail after `x` in a memory that agrees
on the blocks before `x`. -/
theorem Path_splice {m : Heap} {e : Option Nat} {x : Nat} :
    ∀ (l : List Nat) (p : Nat), Path m p l e → x ∈ p :: l → (p :: l).Nodup →
      ∃ pre post, l = pre ++ post ∧ Path m x post e ∧
        ((x = p ∧ pre = []) ∨ ∃ pre', pre = pre' ++ [x]) ∧
        ∀ (m2 : Heap) (post2 : List Nat) (e2 : Option Nat),
          (∀ q, q ∈ p :: pre → q ≠ x → readFwd m2 q 0 = readFwd m q 0) →
          Path m2 x post2 e2 → Path m2 p (pre ++ post2) e2 := by
  intro l
  induction l with
  | nil =>
    intro p h hx _
    simp only [List.mem_singleton] at hx
    subst hx
    exact ⟨[], [], rfl, h, Or.inl ⟨rfl, rfl⟩, fun m2 post2 e2 _ h2 => h2⟩
  | cons a r ih =>
    intro p h hx hnd
    by_cases hxp : x = p
    · subst hxp
      exact ⟨[], a :: r, rfl, h, Or.inl ⟨rfl, rfl⟩, fun m2 post2 e2 _ h2 => h2⟩
    · have hxa : x ∈ a :: r := by
        rcases List.mem_cons.mp hx with h1 | h1
        · exact absurd h1 hxp
        · exact h1
      simp only [Path] at h
      rw [List.nodup_cons] at hnd
      obtain ⟨pre, post, hl, hpost, hlast, hput⟩ := ih a h.2 hxa hnd.2
      refine ⟨a :: pre, post, by rw [hl]; rfl, hpost, ?_, ?_⟩
      · right
        rcases hlast with ⟨h1, h2⟩ | ⟨pre', h2⟩
        · exact ⟨[], by rw [h2, h1]; rfl⟩
        · exact ⟨a :: pre', by rw [h2]; rfl⟩
      · intro m2 post2 e2 hq h2
        simp only [List.cons_append, Path]
        refine ⟨?_, hput m2 post2 e2 (fun q hq' hne => hq q (List.mem_cons_of_mem _ hq') hne) h2⟩
        rw [hq p (List.mem_cons_self _ _) (Ne.symm hxp)]
        exact h.1

theorem lane_of_Path {m : Heap} :
    ∀ (l : List Nat) (p fuel : Nat), Path m p l none → l.length < fuel →
      lane m 0 fuel p = some l := by
  intro l
  induction l with
  | nil =>
    intro p fuel h hf
    obtain ⟨f, rfl⟩ : ∃ f, fuel = f + 1 := ⟨fuel - 1, by simp at hf; omega⟩
    simp only [Path] at h
    simp [lane, h]
  | cons a r ih =>
    intro p fuel h hf
    obtain ⟨f, rfl⟩ : ∃ f, fuel = f + 1 := ⟨fuel - 1, by simp at hf; omega⟩
    simp only [Path] at h
    simp only [List.length_cons] at hf
    simp [lane, h.1, ih a f h.2 (by omega)]

theorem valueAt_of_hdr {m m2 : Heap} {p : Nat} (h : hdr m2 p = hdr m p) :
    valueAt m2 p = valueAt m p := by
  unfold valueAt
  cases hd : deref m p with
  | none =>
    rw [hdr_none.mpr hd] at h
    rw [hdr_none.mp h]
  | some c =>
    obtain ⟨c', hc', hv, _⟩ := deref_of_hdr_eq h hd
    rw [hc']
    exact hv

theorem valueAt_of_deref {m : Heap} {p : Nat} {c : cell} (h : deref m p = some c) :
    valueAt m p = c.value := by
  unfold valueAt
  rw [h]

theorem Lane0.nodup {s : State} {ch : List Nat} (h : Lane0 s ch) : (s.list.head :: ch).Nodup := by
  rw [List.nodup_cons]
  refine ⟨h.head, ?_⟩
  have := h.sorted
  rw [List.pairwise_map] at this
  exact this.imp (fun {a b} hab heq => by rw [heq] at hab; exact lt_irrefl _ hab)

/-- The position of the key on lane 0: where `find_update` ends, the
chain splits into the blocks below the key and the blocks not below it. -/
theorem Lane0_split {s : State} {ch : List Nat} {k : Int} {xf : Nat} {updf upd0 : Update}
    {x0 : Option Nat} (hinv : Lane0 s ch)
    (hf : find_update s.mem k s.list.level.toNat s.list.head upd0 = some (xf, updf))
    (hr : readFwd s.mem xf 0 = some x0) :
    ∃ pre post, ch = pre ++ post ∧ Path s.mem xf post none ∧
      ((xf = s.list.head ∧ pre = []) ∨ ∃ pre', pre = pre' ++ [xf]) ∧
      (∀ (m2 : Heap) (post2 : List Nat) (e2 : Option Nat),
        (∀ q, q ∈ s.list.head :: pre → q ≠ xf → readFwd m2 q 0 = readFwd s.mem q 0) →
        Path m2 xf post2 e2 → Path m2 s.list.head (pre ++ post2) e2) ∧
      x0 = post.head? ∧ xf ∉ post ∧
      (∀ a, a ∈ pre → valueAt s.mem a < k) ∧
      (∀ a, a ∈ post → ¬ valueAt s.mem a < k) := by
  obtain ⟨hxf, hz, hends⟩ := find_update_ends _ _ _ _ _ hf
  have hmem : xf ∈ s.list.head :: ch := by
    rcases hxf with h1 | ⟨c, hc, _⟩
    · rw [h1]; exact List.mem_cons_self _ _
    · have : hdr s.mem xf ≠ none := by rw [hdr_some hc]; simp
      rcases hinv.all xf this with h2 | h2
      · rw [h2]; exact List.mem_cons_self _ _
      · exact List.mem_cons_of_mem _ h2
  have hnd := hinv.nodup
  obtain ⟨pre, post, hl, hpost, hlast, hput⟩ := Path_splice ch s.list.head hinv.path hmem hnd
  have hsorted := hinv.sorted
  rw [hl, List.map_append, List.pairwise_append] at hsorted
  obtain ⟨hs1, hs2, hs3⟩ := hsorted
  have hx0 : x0 = post.head? := by
    cases post with
    | nil =>
      simp only [Path] at hpost
      rw [hr] at hpost
      simpa using hpost
    | cons y r =>
      simp only [Path] at hpost
      rw [hr] at hpost
      simpa using hpost.1
  have hxfpost : xf ∉ post := by
    intro hin
    rw [hl, ← List.cons_append, List.nodup_append] at hnd
    have hxpre : xf ∈ s.list.head :: pre := by
      rcases hlast with ⟨h1, h2⟩ | ⟨pre', h2⟩
      · rw [h1]; exact List.mem_cons_self _ _
      · rw [h2]; exact List.mem_cons_of_mem _ (by simp)
    exact hnd.2.2 hxpre hin
  refine ⟨pre, post, hl, hpost, hlast, hput, hx0, hxfpost, ?_, ?_⟩
  · intro a ha
    rcases hlast with ⟨h1, h2⟩ | ⟨pre', h2⟩
    · rw [h2] at ha; simp at ha
    · have hxfk : valueAt s.mem xf < k := by
        rcases hxf with h1 | ⟨c, hc, hv⟩
        · exfalso
          apply hinv.head
          rw [hl, h2, ← h1]
          simp
        · rw [valueAt_of_deref hc]; exact hv
      rw [h2] at ha hs1
      rcases List.mem_append.mp ha with ha' | ha'
      · rw [List.map_append, List.pairwise_append] at hs1
        have := hs1.2.2 (valueAt s.mem a) (List.mem_map_of_mem _ ha') (valueAt s.mem xf) (by simp)
        omega
      · simp only [List.mem_singleton] at ha'
        rw [ha']; exact hxfk
  · -- the first block after `xf` is not below the key, the others are above it
    cases hpost' : post with
    | nil => intro a ha; simp at ha
    | cons y r =>
      rw [hpost'] at hx0 hs2
      simp only [List.head?_cons] at hx0
      have hN : 0 < s.list.level.toNat := by
        by_contra hN
        have : ch = [] := hinv.empty (by omega)
        rw [this, hpost'] at hl
        simp at hl
      obtain ⟨b, hb, hstop, _⟩ := hends 0 hN
      rw [hz hN] at hb
      cases hb
      have hy : ¬ valueAt s.mem y < k := by
        rcases hstop with h1 | ⟨y', c, h1, h2, h3⟩
        · rw [hr, hx0] at h1; simp at h1
        · rw [hr, hx0] at h1
          simp only [Option.some.injEq] at h1
          subst h1
          rw [valueAt_of_deref h2]; exact h3
      intro a ha
      rcases List.mem_cons.mp ha with rfl | ha'
      · exact hy
      · simp only [List.map_cons, List.pairwise_cons] at hs2
        have := hs2.1 (valueAt s.mem a) (List.mem_map_of_mem _ ha')
        omega

/-- A successful `insert` keeps the invariant of lane 0 and puts the new
block between the blocks below the key and the blocks above it. -/
theorem Lane0_insert {s s' : State} {ch : List Nat} {k rl : Int} (hinv : Lane0 s ch)
    (hrl : 1 ≤ rl) (h : insert s k rl = some (ret_codes.OK, s')) :
    ∃ pre post, ch = pre ++ post ∧ Lane0 s' (pre ++ s.mem.length :: post) ∧
      (∀ a, a ∈ pre → valueAt s.mem a < k) ∧ (∀ a, a ∈ post → k < valueAt s.mem a) ∧
      valueAt s'.mem s.mem.length = k ∧ ∀ a, a ∈ ch → valueAt s'.mem a = valueAt s.mem a := by
  obtain ⟨xf, updf, x0, lvl, upd', hf, hr, hk, hg, hlvl, hhead, hlen, hhdr, hnew, hrd, hrdn,
    hxf0, hheadlive⟩ := insert_ok_mem hrl h
  obtain ⟨pre, post, hl, hpost, hlast, hput, hx0, hxfpost, hpre, hpost_ge⟩ :=
    Lane0_split hinv hf hr
  have hlive : ∀ q, q ∈ s.list.head :: ch → q < s.mem.length := fun q hq =>
    hdr_live_lt (Path_live ch s.list.head hinv.path q hq)
  have hxflive : xf < s.mem.length := by
    obtain ⟨c, hc, _⟩ := readFwd_live hr
    exact deref_lt hc
  have hl0 : 0 < lvl.toNat := by omega
  -- lane 0 in the new memory
  have hrd0 : ∀ q, q < s.mem.length → q ≠ xf → readFwd s'.mem q 0 = readFwd s.mem q 0 := by
    intro q hq hne
    rw [hrd q 0 hq, if_neg]
    rintro ⟨_, h2⟩
    rw [hxf0] at h2
    exact hne (Option.some.inj h2).symm
  have hrdxf : readFwd s'.mem xf 0 = some (some s.mem.length) := by
    rw [hrd xf 0 hxflive, if_pos ⟨hl0, hxf0⟩]
  have hrdnew : readFwd s'.mem s.mem.length 0 = readFwd s.mem xf 0 := by
    obtain ⟨u, hu1, _, hu3, _⟩ := hrdn 0 hl0
    rw [hxf0] at hu1
    cases hu1
    exact hu3
  have hval : ∀ a, a ∈ ch → valueAt s'.mem a = valueAt s.mem a := fun a ha =>
    valueAt_of_hdr (hhdr a (hlive a (List.mem_cons_of_mem _ ha)))
  have hvalnew : valueAt s'.mem s.mem.length = k := by
    obtain ⟨c, hc, hv, _⟩ := hdr_eq_some hnew
    rw [valueAt_of_deref hc]; exact hv
  have hpost_gt : ∀ a, a ∈ post → k < valueAt s.mem a := by
    intro a ha
    have hge := hpost_ge a ha
    -- the first block of `post` differs from the key, the others are above the first
    cases hpost' : post with
    | nil => rw [hpost'] at ha; simp at ha
    | cons y r =>
      rw [hpost'] at hx0 ha
      simp only [List.head?_cons] at hx0
      have hyk : valueAt s.mem y ≠ k := by
        rcases holds_key_false hk with h1 | ⟨y', c, h1, h2, h3⟩
        · rw [hx0] at h1; cases h1
        · rw [hx0] at h1
          cases h1
          rw [valueAt_of_deref h2]; exact h3
      have hyge := hpost_ge y (by rw [hpost']; exact List.mem_cons_self _ _)
      rcases List.mem_cons.mp ha with rfl | ha'
      · omega
      · have hsorted := hinv.sorted
        rw [hl, hpost', List.map_append, List.pairwise_append] at hsorted
        have := hsorted.2.1
        simp only [List.map_cons, List.pairwise_cons] at this
        have := this.1 (valueAt s.mem a) (List.mem_map_of_mem _ ha')
        omega
  refine ⟨pre, post, hl, ?_, hpre, hpost_gt, hvalnew, hval⟩
  have hsub : ∀ q, q ∈ s.list.head :: pre → q ∈ s.list.head :: ch := by
    intro q hq
    rcases List.mem_cons.mp hq with h1 | h1
    · rw [h1]; exact List.mem_cons_self _ _
    · exact List.mem_cons_of_mem _ (by rw [hl]; exact List.mem_append_left _ h1)
  constructor
  · -- the chain
    rw [hhead]
    apply hput s'.mem (s.mem.length :: post) none
    · intro q hq hne
      exact hrd0 q (hlive q (hsub q hq)) hne
    · refine ⟨hrdxf, ?_⟩
      apply Path_swap post hrdnew _ hpost
      intro q hq
      apply hrd0 q (hlive q (List.mem_cons_of_mem _ (by rw [hl]; exact List.mem_append_right _ hq)))
      intro hqx
      rw [hqx] at hq
      exact hxfpost hq
  · -- the order
    have hsorted := hinv.sorted
    rw [hl, List.map_append, List.pairwise_append] at hsorted
    rw [List.map_append, List.pairwise_append, List.map_cons, List.pairwise_cons]
    have hmap1 : pre.map (valueAt s'.mem) = pre.map (valueAt s.mem) :=
      List.map_congr_left (fun a ha => hval a (by rw [hl]; exact List.mem_append_left _ ha))
    have hmap2 : post.map (valueAt s'.mem) = post.map (valueAt s.mem) :=
      List.map_congr_left (fun a ha => hval a (by rw [hl]; exact List.mem_append_right _ ha))
    rw [hmap1, hmap2, hvalnew]
    refine ⟨hsorted.1, ⟨?_, hsorted.2.1⟩, ?_⟩
    · intro b hb
      obtain ⟨a, ha, rfl⟩ := List.mem_map.mp hb
      exact hpost_gt a ha
    · intro a ha b hb
      obtain ⟨a', ha', rfl⟩ := List.mem_map.mp ha
      rcases List.mem_cons.mp hb with rfl | hb'
      · exact hpre a' ha'
      · exact hsorted.2.2 _ ha b hb'
  · -- every live block is on the chain
    intro p hp
    rw [hhead]
    have hplt : p < s.mem.length + 1 := by rw [← hlen]; exact hdr_live_lt hp
    by_cases hpn : p = s.mem.length
    · right; rw [hpn]; simp
    · have hp' : p < s.mem.length := by omega
      rw [hhdr p hp'] at hp
      rcases hinv.all p hp with h1 | h1
      · exact Or.inl h1
      · right
        rw [hl] at h1
        rcases List.mem_append.mp h1 with h2 | h2
        · exact List.mem_append_left _ h2
        · exact List.mem_append_right _ (List.mem_cons_of_mem _ h2)
  · -- the head is not on the chain
    rw [hhead]
    intro hin
    rcases List.mem_append.mp hin with h2 | h2
    · exact hinv.head (by rw [hl]; exact List.mem_append_left _ h2)
    · rcases List.mem_cons.mp h2 with h3 | h3
      · omega
      · exact hinv.head (by rw [hl]; exact List.mem_append_right _ h3)
  · -- the level is positive
    intro hle
    exfalso
    rcases grow_spec hg with ⟨_, h0, h1, _, _⟩ | ⟨h0, h1, h2, _⟩ <;> omega

/-! ## Taking `delete` apart -/

theorem delete_ok_inv {s s' : State} {k : Int}
    (h : delete s k = some (ret_codes.OK, s')) :
    ∃ xf updf y c m1 m2 level',
      find_update s.mem k s.list.level.toNat s.list.head update_init = some (xf, updf) ∧
      readFwd s.mem xf 0 = some (some y) ∧ deref s.mem y = some c ∧ c.value = k ∧
      unlink_loop updf y (List.range s.list.level.toNat) s.mem = some m1 ∧
      free m1 y = some m2 ∧
      shrink m2 s.list.head s.list.level.toNat s.list.level = some level' ∧
      s' = { mem := m2, list := { s.list with level := level' } } := by
  unfold delete at h
  cases hf : find_update s.mem k s.list.level.toNat s.list.head update_init with
  | none => simp [hf] at h
  | some r =>
    obtain ⟨xf, updf⟩ := r
    simp only [hf] at h
    cases hr : readFwd s.mem xf 0 with
    | none => simp [hr] at h
    | some x0 =>
      simp only [hr] at h
      cases hk : holds_key s.mem x0 k with
      | none => simp [hk] at h
      | some b =>
        cases b with
        | false => simp [hk] at h
        | true =>
          simp only [hk] at h
          obtain ⟨y, c, rfl, hc, hv⟩ := holds_key_true hk
          simp only at h
          cases hu : unlink_loop updf y (List.range s.list.level.toNat) s.mem with
          | none => simp [hu] at h
          | some m1 =>
            simp only [hu] at h
            cases hfr : free m1 y with
            | none => simp [hfr] at h
            | some m2 =>
              simp only [hfr] at h
              cases hsh : shrink m2 s.list.head s.list.level.toNat s.list.level with
              | none => simp [hsh] at h
              | some level' =>
                simp only [hsh, Option.some.injEq, Prod.mk.injEq, true_and] at h
                exact ⟨xf, updf, y, c, m1, m2, level', rfl, hr, hc, hv, hu, hfr, hsh, h.symm⟩

theorem delete_code {s s' : State} {k : Int} {r : ret_codes}
    (h : delete s k = some (r, s')) :
    r = ret_codes.OK ∨ (r = ret_codes.ERROR_NOT_FOUND ∧ s' = s) := by
  unfold delete at h
  cases hf : find_update s.mem k s.list.level.toNat s.list.head update_init with
  | none => simp [hf] at h
  | some r =>
    obtain ⟨xf, updf⟩ := r
    simp only [hf] at h
    cases hr : readFwd s.mem xf 0 with
    | none => simp [hr] at h
    | some x0 =>
      simp only [hr] at h
      cases hk : holds_key s.mem x0 k with
      | none => simp [hk] at h
      | some b =>
        cases b with
        | false =>
          simp only [hk, Option.some.injEq, Prod.mk.injEq] at h
          exact Or.inr ⟨h.1.symm, h.2.symm⟩
        | true =>
          simp only [hk] at h
          obtain ⟨y, c, rfl, hc, hv⟩ := holds_key_true hk
          simp only at h
          cases hu : unlink_loop updf y (List.range s.list.level.toNat) s.mem with
          | none => simp [hu] at h
          | some m1 =>
            simp only [hu] at h
            cases hfr : free m1 y with
            | none => simp [hfr] at h
            | some m2 =>
              simp only [hfr] at h
              cases hsh : shrink m2 s.list.head s.list.level.toNat s.list.level with
              | none => simp [hsh] at h
              | some level' =>
                simp only [hsh, Option.some.injEq, Prod.mk.injEq] at h
                exact Or.inl h.1.symm

theorem unlink_loop_spec {upd : Update} {x : Nat} :
    ∀ (l : List Nat) (m m' : Heap), unlink_loop upd x l m = some m' →
      m'.length = m.length ∧ (∀ q, hdr m' q = hdr m q) ∧
      (∀ q j, j ∉ l → readFwd m' q j = readFwd m q j) := by
  intro l
  induction l with
  | nil =>
    intro m m' h
    simp only [unlink_loop, Option.some.injEq] at h
    subst h
    simp
  | cons i rest ih =>
    intro m m' h
    unfold unlink_loop at h
    cases hu : getUpdate upd i with
    | none => simp [hu] at h
    | some u =>
      simp only [hu] at h
      cases hf : readFwd m u i with
      | none => simp [hf] at h
      | some f =>
        simp only [hf] at h
        by_cases hfx : f = some x
        · rw [if_pos hfx] at h
          cases hx : readFwd m x i with
          | none => simp [hx] at h
          | some fx =>
            simp only [hx] at h
            cases hw : writeFwd m u i fx with
            | none => simp [hw] at h
            | some m1 =>
              simp only [hw] at h
              obtain ⟨h1, h2, h3⟩ := ih m1 m' h
              refine ⟨by rw [h1, writeFwd_length hw], fun q => by rw [h2, writeFwd_hdr hw], ?_⟩
              intro q j hj
              simp only [List.mem_cons, not_or] at hj
              rw [h3 q j hj.2, writeFwd_readFwd hw, if_neg (fun hh => hj.1 hh.2)]
        · rw [if_neg hfx] at h
          cases h
          exact ⟨rfl, fun _ => rfl, fun _ _ _ => rfl⟩

/-- Lane 0 is always unlinked: the first iteration of the loop of
`delete` finds the block to remove right after `update[0]`. -/
theorem unlink_loop_zero {upd : Update} {x u : Nat} {n : Nat} {m m' : Heap}
    (hu : getUpdate upd 0 = some u) (hf : readFwd m u 0 = some (some x))
    (h : unlink_loop upd x (List.range (n + 1)) m = some m') :
    ∃ fx, readFwd m x 0 = some fx ∧ m'.length = m.length ∧ (∀ q, hdr m' q = hdr m q) ∧
      ∀ q, readFwd m' q 0 = if q = u then some fx else readFwd m q 0 := by
  rw [List.range_succ_eq_map] at h
  unfold unlink_loop at h
  simp only [hu, hf, if_true] at h
  cases hx : readFwd m x 0 with
  | none => simp [hx] at h
  | some fx =>
    simp only [hx] at h
    cases hw : writeFwd m u 0 fx with
    | none => simp [hw] at h
    | some m1 =>
      simp only [hw] at h
      obtain ⟨h1, h2, h3⟩ := unlink_loop_spec _ _ _ h
      refine ⟨fx, rfl, by rw [h1, writeFwd_length hw], fun q => by rw [h2, writeFwd_hdr hw], ?_⟩
      intro q
      rw [h3 q 0 (by simp), writeFwd_readFwd hw]
      simp

theorem free_spec {m m2 : Heap} {y : Nat} (h : free m y = some m2) :
    m2.length = m.length ∧ deref m2 y = none ∧ ∀ q, q ≠ y → deref m2 q = deref m q := by
  unfold free at h
  cases hd : deref m y with
  | none => simp [hd] at h
  | some c =>
    simp only [hd, Option.some.injEq] at h
    subst h
    exact ⟨by simp, deref_set_eq _ _ _ (deref_lt hd), fun q hq => deref_set_ne _ _ _ _ hq⟩

theorem shrink_spec {m : Heap} {head : Nat} :
    ∀ (fuel : Nat) (level l' : Int), shrink m head fuel level = some l' →
      l' ≤ level ∧ (1 ≤ level → 1 ≤ l') ∧ (level ≤ 1 → l' = level) := by
  intro fuel
  induction fuel with
  | zero =>
    intro level l' h
    unfold shrink at h
    by_cases hl : level > 1
    · rw [if_pos hl] at h; cases h
    · rw [if_neg hl] at h
      cases h
      exact ⟨le_refl _, fun h => h, fun _ => rfl⟩
  | succ f ih =>
    intro level l' h
    unfold shrink at h
    by_cases hl : level > 1
    · rw [if_pos hl] at h
      cases hr : readFwd m head level.toNat with
      | none => simp [hr] at h
      | some v =>
        cases v with
        | none =>
          simp only [hr] at h
          obtain ⟨h1, h2, h3⟩ := ih (level - 1) l' h
          exact ⟨by omega, fun _ => h2 (by omega), fun _ => by omega⟩
        | some w =>
          simp only [hr, Option.some.injEq] at h
          subst h
          exact ⟨le_refl _, fun h => h, fun _ => rfl⟩
    · rw [if_neg hl] at h
      cases h
      exact ⟨le_refl _, fun h => h, fun _ => rfl⟩

/-- A successful `delete` keeps the invariant of lane 0 and takes the
block holding the key off the chain. -/
theorem Lane0_delete {s s' : State} {ch : List Nat} {k : Int} (hinv : Lane0 s ch)
    (h : delete s k = some (ret_codes.OK, s')) :
    ∃ pre y post, ch = pre ++ y :: post ∧ valueAt s.mem y = k ∧ Lane0 s' (pre ++ post) ∧
      ∀ a, a ∈ pre ++ post → valueAt s'.mem a = valueAt s.mem a := by
  obtain ⟨xf, updf, y, c, m1, m2, level', hf, hr, hc, hv, hu, hfr, hsh, rfl⟩ := delete_ok_inv h
  obtain ⟨pre, postS, hl, hpostS, hlast, hput, hx0, hxfpost, hpre, hpost_ge⟩ :=
    Lane0_split hinv hf hr
  obtain ⟨hxf, hz, hends⟩ := find_update_ends _ _ _ _ _ hf
  -- the chain after `xf` starts with the block to remove
  obtain ⟨post, rfl⟩ : ∃ post, postS = y :: post := by
    cases postS with
    | nil => simp at hx0
    | cons a r =>
      simp only [List.head?_cons, Option.some.injEq] at hx0
      exact ⟨r, by rw [hx0]⟩
  simp only [Path] at hpostS
  have hN : 0 < s.list.level.toNat := by
    by_contra hN
    have : ch = [] := hinv.empty (by omega)
    rw [this] at hl
    simp at hl
  obtain ⟨n, hn⟩ : ∃ n, s.list.level.toNat = n + 1 := ⟨s.list.level.toNat - 1, by omega⟩
  rw [hn] at hu
  obtain ⟨fx, hfx, hlen1, hhdr1, hrd1⟩ := unlink_loop_zero (hz hN) hr hu
  obtain ⟨hlen2, hdy, hdq⟩ := free_spec hfr
  have hnd := hinv.nodup
  have hlive : ∀ q, q ∈ s.list.head :: ch → q < s.mem.length := fun q hq =>
    hdr_live_lt (Path_live ch s.list.head hinv.path q hq)
  have hynotpre : ∀ q, q ∈ s.list.head :: pre → q ≠ y := by
    intro q hq hqy
    rw [hl, ← List.cons_append, List.nodup_append] at hnd
    exact hnd.2.2 hq (by rw [hqy]; exact List.mem_cons_self _ _)
  have hynotpost : y ∉ post := by
    rw [hl, ← List.cons_append, List.nodup_append] at hnd
    exact (List.nodup_cons.mp hnd.2.1).1
  have hxfy : xf ≠ y := fun e => hxfpost (by rw [e]; exact List.mem_cons_self _ _)
  have hrd2 : ∀ q, q ≠ y → readFwd m2 q 0 = if q = xf then some fx else readFwd s.mem q 0 := by
    intro q hq
    rw [← hrd1 q]
    unfold readFwd
    rw [hdq q hq]
  have hhdr2 : ∀ q, q ≠ y → hdr m2 q = hdr s.mem q := by
    intro q hq
    rw [← hhdr1 q]
    unfold hdr
    rw [hdq q hq]
  have hval : ∀ a, a ∈ pre ++ post → valueAt m2 a = valueAt s.mem a := by
    intro a ha
    apply valueAt_of_hdr
    apply hhdr2
    rcases List.mem_append.mp ha with h1 | h1
    · exact hynotpre a (List.mem_cons_of_mem _ h1)
    · intro e; rw [e] at h1; exact hynotpost h1
  refine ⟨pre, y, post, hl, by rw [valueAt_of_deref hc]; exact hv, ?_, hval⟩
  constructor
  · -- the chain
    apply hput m2 post none
    · intro q hq hne
      rw [hrd2 q (hynotpre q hq), if_neg hne]
    · apply Path_swap post _ _ hpostS.2
      · rw [hrd2 xf hxfy, if_pos rfl, hfx]
      · intro q hq
        have hqy : q ≠ y := fun e => hynotpost (by rw [← e]; exact hq)
        have hqx : q ≠ xf := fun e => hxfpost (by rw [← e]; exact List.mem_cons_of_mem _ hq)
        rw [hrd2 q hqy, if_neg hqx]
  · -- the order
    have hsorted := hinv.sorted
    rw [hl] at hsorted
    have hsub : (pre ++ post).Sublist (pre ++ y :: post) :=
      List.Sublist.append (List.Sublist.refl _) (List.sublist_cons_self _ _)
    have := hsorted.sublist (hsub.map (valueAt s.mem))
    rw [List.map_congr_left hval]
    exact this
  · -- every live block is on the chain
    intro p hp
    have hpy : p ≠ y := by
      intro e
      apply hp
      rw [e]
      exact hdr_none.mpr hdy
    rw [hhdr2 p hpy] at hp
    rcases hinv.all p hp with h1 | h1
    · exact Or.inl h1
    · right
      rw [hl] at h1
      rcases List.mem_append.mp h1 with h2 | h2
      · exact List.mem_append_left _ h2
      · rcases List.mem_cons.mp h2 with h3 | h3
        · exact absurd h3 hpy
        · exact List.mem_append_right _ h3
  · -- the head is not on the chain
    intro hin
    apply hinv.head
    rw [hl]
    rcases List.mem_append.mp hin with h2 | h2
    · exact List.mem_append_left _ h2
    · exact List.mem_append_right _ (List.mem_cons_of_mem _ h2)
  · -- the level stays positive
    intro hle
    exfalso
    have := (shrink_spec _ _ _ hsh).2.1 (by omega)
    exact absurd hle (by simp only; omega)

/-! ## The lists reachable from `setup_list` -/

theorem Lane0_setup (l0 : slist) : Lane0 (setup_list l0) [] := by
  constructor
  · show readFwd (setup_list l0).mem 0 0 = some none
    rfl
  · simp
  · intro p hp
    left
    have := hdr_live_lt hp
    simp only [setup_list, List.length_singleton] at this
    show p = 0
    omega
  · simp
  · intro _; rfl

theorem Lane0_reachable {s : State} (h : Reachable s) : ∃ ch, Lane0 s ch := by
  induction h with
  | setup l0 => exact ⟨[], Lane0_setup l0⟩
  | @insert s s' k rl r _ h1 _ hi ih =>
    obtain ⟨ch, hch⟩ := ih
    rcases insert_code hi with rfl | rfl
    · obtain ⟨pre, post, _, h2, _⟩ := Lane0_insert hch h1 hi
      exact ⟨_, h2⟩
    · rw [(insert_dup_inv hi).1]
      exact ⟨ch, hch⟩
  | @delete s s' k r _ hd ih =>
    obtain ⟨ch, hch⟩ := ih
    rcases delete_code hd with rfl | ⟨_, rfl⟩
    · obtain ⟨pre, y, post, _, _, h2, _⟩ := Lane0_delete hch hd
      exact ⟨_, h2⟩
    · exact ⟨ch, hch⟩

theorem nodup_length_le (l : List Nat) (n : Nat) (hnd : l.Nodup) (hlt : ∀ a, a ∈ l → a < n) :
    l.length ≤ n := by
  have h1 : l.toFinset ⊆ Finset.range n := by
    intro a ha
    rw [List.mem_toFinset] at ha
    exact Finset.mem_range.mpr (hlt a ha)
  have h2 := Finset.card_le_card h1
  rw [List.toFinset_card_of_nodup hnd, Finset.card_range] at h2
  exact h2

theorem Lane0.length_lt {s : State} {ch : List Nat} (h : Lane0 s ch) :
    ch.length < s.mem.length := by
  have h1 := nodup_length_le (s.list.head :: ch) s.mem.length h.nodup
    (fun q hq => hdr_live_lt (Path_live ch s.list.head h.path q hq))
  simp only [List.length_cons] at h1
  omega

theorem Lane0.lane_nodes {s : State} {ch : List Nat} (h : Lane0 s ch) :
    lane_nodes s 0 = some ch := by
  unfold SkipList.lane_nodes
  exact lane_of_Path ch s.list.head _ h.path (by have := h.length_lt; omega)

theorem Lane0.lane_keys {s : State} {ch : List Nat} (h : Lane0 s ch) :
    lane_keys s 0 = some (ch.map (valueAt s.mem)) := by
  unfold SkipList.lane_keys
  rw [h.lane_nodes]
  rfl

theorem Reachable_run {s : State} (h : Reachable s) :
    ∀ (ops : List Op) (rs : List ret_codes) (s' : State), heights_ok ops →
      run s ops = some (rs, s') → Reachable s' := by
  intro ops
  induction ops generalizing s with
  | nil =>
    intro rs s' _ hr
    simp only [run, Option.some.injEq, Prod.mk.injEq] at hr
    rw [← hr.2]; exact h
  | cons op rest ih =>
    intro rs s' hok hr
    unfold run at hr
    cases hs : step s op with
    | none => simp [hs] at hr
    | some p =>
      obtain ⟨r, s1⟩ := p
      simp only [hs] at hr
      cases hrest : run s1 rest with
      | none => simp [hrest] at hr
      | some q =>
        obtain ⟨rs1, s2⟩ := q
        simp only [hrest, Option.some.injEq, Prod.mk.injEq] at hr
        rw [← hr.2]
        cases op with
        | ins k rl =>
          simp only [heights_ok] at hok
          exact ih (Reachable.insert h hok.1 hok.2.1 hs) rs1 s2 hok.2.2 hrest
        | del k =>
          simp only [heights_ok] at hok
          exact ih (Reachable.delete h hs) rs1 s2 hok hrest

/-! ## Lists built by insertions only -/

theorem countP_lt_countP {α : Type} (p p' : α → Bool) :
    ∀ (l : List α), (∀ a, a ∈ l → p a = true → p' a = true) →
      (∃ a, a ∈ l ∧ p' a = true ∧ p a = false) → l.countP p < l.countP p' := by
  intro l
  induction l with
  | nil => intro _ h; obtain ⟨a, ha, _⟩ := h; simp at ha
  | cons b r ih =>
    intro himp hex
    have hle : r.countP p ≤ r.countP p' := by
      apply List.countP_mono_left
      intro a ha h
      exact himp a (List.mem_cons_of_mem _ ha) h
    obtain ⟨a, ha, h1, h2⟩ := hex
    rw [List.countP_cons, List.countP_cons]
    rcases List.mem_cons.mp ha with rfl | ha'
    · simp only [h1, h2, if_true]
      simp
      omega
    · have := ih (fun a ha h => himp a (List.mem_cons_of_mem _ ha) h) ⟨a, ha', h1, h2⟩
      by_cases hb : p b = true
      · have hb' := himp b (List.mem_cons_self _ _) hb
        simp only [hb, hb', if_true]
        omega
      · by_cases hb' : p' b = true
        · simp only [hb, hb', if_true]
          simp
          omega
        · simp only [hb, hb']
          simp
          omega

theorem Has.mono {s : State} {p n n' : Nat} (h : Has s p n) (hle : n' ≤ n) : Has s p n' := by
  rcases h with ⟨h1, h2⟩ | ⟨h1, c, h2, h3⟩
  · exact Or.inl ⟨h1, by omega⟩
  · exact Or.inr ⟨h1, c, h2, by omega⟩

theorem advance_defined {s : State} {ch : List Nat} (hg : Good s ch) (k : Int) (i : Nat) :
    ∀ (fuel x : Nat), Has s x (i + 1) → ahead s ch x < fuel →
      ∃ b, advance s.mem k i fuel x = some b ∧ Has s b (i + 1) := by
  intro fuel
  induction fuel with
  | zero => intro x _ h; omega
  | succ f ih =>
    intro x hx hf
    unfold advance
    rcases hg.next x (i + 1) i hx (by omega) with h1 | ⟨q, cq, h1, h2, h3, h4, h5⟩
    · rw [h1]
      exact ⟨x, rfl, hx⟩
    · rw [h1]
      simp only [h3]
      by_cases hlt : cq.value < k
      · rw [if_pos hlt]
        have hq : Has s q (i + 1) := Or.inr ⟨h2, cq, h3, by omega⟩
        apply ih q hq
        have hqch : q ∈ ch := by
          have : hdr s.mem q ≠ none := by rw [hdr_some h3]; simp
          rcases hg.lane0.all q this with h | h
          · exact absurd h h2
          · exact h
        have hvq : valueAt s.mem q = cq.value := valueAt_of_deref h3
        have : ahead s ch q < ahead s ch x := by
          unfold ahead
          apply countP_lt_countP
          · intro a _ ha
            simp only [decide_eq_true_eq] at ha ⊢
            rcases ha with ha | ha
            · exact absurd ha h2
            · by_cases hxh : x = s.list.head
              · exact Or.inl hxh
              · right
                have := h5 hxh
                omega
          · refine ⟨q, hqch, ?_, ?_⟩
            · simp only [decide_eq_true_eq]
              by_cases hxh : x = s.list.head
              · exact Or.inl hxh
              · right
                have := h5 hxh
                omega
            · simp only [decide_eq_false_iff_not, not_or]
              exact ⟨h2, lt_irrefl _⟩
        omega
      · rw [if_neg hlt]
        exact ⟨x, rfl, hx⟩

theorem find_update_defined {s : State} {ch : List Nat} (hg : Good s ch) (k : Int) :
    ∀ (n x : Nat) (upd : Update), n ≤ upd.length → Has s x n →
      ∃ xf updf, find_update s.mem k n x upd = some (xf, updf) ∧
        ∀ i, i < n → ∃ b, getUpdate updf i = some b ∧ Has s b (i + 1) := by
  intro n
  induction n with
  | zero =>
    intro x upd _ _
    exact ⟨x, upd, rfl, fun i hi => absurd hi (by omega)⟩
  | succ i ih =>
    intro x upd hlen hx
    have hfuel : ahead s ch x < s.mem.length := by
      have h1 : ahead s ch x ≤ ch.length := List.countP_le_length _
      have h2 := hg.lane0.length_lt
      omega
    obtain ⟨x', hx', hhas⟩ := advance_defined hg k i s.mem.length x hx hfuel
    have hset := setUpdate_defined x' (show i < upd.length by omega)
    obtain ⟨xf, updf, hf, hends⟩ := ih x' (upd.set i (some x')) (by simp; omega)
      (hhas.mono (by omega))
    refine ⟨xf, updf, ?_, ?_⟩
    · unfold find_update
      simp only [hx', hset]
      exact hf
    · intro j hj
      by_cases hji : j < i
      · exact hends j hji
      · have hji' : j = i := by omega
        subst hji'
        obtain ⟨_, hfr⟩ := find_update_frame _ _ _ _ _ hf
        refine ⟨x', ?_, hhas⟩
        rw [hfr j (le_refl _), getUpdate_setUpdate hset, if_pos rfl]

theorem link_loop_defined {upd : Update} {x : Nat} :
    ∀ (l : List Nat) (m : Heap),
      (∃ h : Int × Int × Nat, hdr m x = some h ∧ ∀ j, j ∈ l → j < h.2.2) →
      (∀ j, j ∈ l → ∃ u, getUpdate upd j = some u ∧ (readFwd m u j).isSome) →
      ∃ m', link_loop upd x l m = some m' := by
  intro l
  induction l with
  | nil => intro m _ _; exact ⟨m, rfl⟩
  | cons i rest ih =>
    intro m hx hu
    obtain ⟨hd, hhd, hslots⟩ := hx
    obtain ⟨u, hu1, hu2⟩ := hu i (List.mem_cons_self _ _)
    obtain ⟨f, hf⟩ := Option.isSome_iff_exists.mp hu2
    obtain ⟨cx, hcx, _, _, hlen⟩ := hdr_eq_some hhd
    obtain ⟨m1, hm1⟩ := writeFwd_defined f hcx
      (by rw [hlen]; exact hslots i (List.mem_cons_self _ _))
    obtain ⟨cu, hcu, hcul⟩ := readFwd_live hf
    have hcu1 : hdr m1 u = hdr m u := writeFwd_hdr hm1 u
    obtain ⟨cu', hcu', _, _, hlen'⟩ := deref_of_hdr_eq hcu1 hcu
    obtain ⟨m2, hm2⟩ := writeFwd_defined (some x) hcu' (by rw [hlen']; exact hcul)
    have hstep : link_step upd x m i = some m2 := by
      unfold link_step
      simp only [hu1, hf, hm1]
      exact hm2
    obtain ⟨_, _, _, _, _, hh, hr⟩ := link_step_spec hstep
    obtain ⟨m', hm'⟩ := ih m2
      ⟨hd, by rw [hh]; exact hhd, fun j hj => hslots j (List.mem_cons_of_mem _ hj)⟩
      (by
        intro j hj
        obtain ⟨w, hw1, hw2⟩ := hu j (List.mem_cons_of_mem _ hj)
        refine ⟨w, hw1, ?_⟩
        rw [hr]
        split
        · rfl
        · split
          · rfl
          · exact hw2)
    refine ⟨m', ?_⟩
    unfold link_loop
    simp only [hstep]
    exact hm'

theorem Has_of_hdr {s s' : State} {p n : Nat} (hhead : s'.list.head = s.list.head)
    (hh : hdr s'.mem p = hdr s.mem p) (h : Has s' p n) : Has s p n := by
  rcases h with ⟨h1, h2⟩ | ⟨h1, c, h2, h3⟩
  · exact Or.inl ⟨by rw [← hhead]; exact h1, h2⟩
  · right
    refine ⟨by rw [← hhead]; exact h1, ?_⟩
    obtain ⟨c', hc', _, hl, _⟩ := deref_of_hdr_eq hh.symm h2
    exact ⟨c', hc', by rw [hl]; exact h3⟩

/-- A successful `insert` into a list built by insertions keeps all its
lanes in order. -/
theorem Good_insert {s s' : State} {ch : List Nat} {k rl : Int} (hg : Good s ch)
    (hrl : 1 ≤ rl) (hrl2 : rl ≤ (MAXLEVEL : Int))
    (h : insert s k rl = some (ret_codes.OK, s')) :
    ∃ pre post, ch = pre ++ post ∧ Good s' (pre ++ s.mem.length :: post) ∧
      (∀ a, a ∈ pre → valueAt s.mem a < k) ∧ (∀ a, a ∈ post → k < valueAt s.mem a) ∧
      valueAt s'.mem s.mem.length = k ∧ ∀ a, a ∈ ch → valueAt s'.mem a = valueAt s.mem a := by
  obtain ⟨pre, post, hl, hlane, hpre, hpost, hvnew, hval⟩ := Lane0_insert hg.lane0 hrl h
  obtain ⟨xf, updf, x0, lvl, upd', hf, hr, hk, hgrow, hlvl, hhead, hlen, hhdr, hnew, hrd, hrdn,
    hxf0, hheadlive⟩ := insert_ok_mem hrl h
  have hN16 : s.list.level.toNat ≤ update_init.length := by
    rw [update_init_length]
    have := hg.level_le
    have := hg.level_ge
    omega
  have hN16' : s.list.level.toNat ≤ MAXLEVEL := by rw [← update_init_length]; exact hN16
  obtain ⟨xf2, updf2, hf2, hhas⟩ := find_update_defined hg k s.list.level.toNat s.list.head
    update_init hN16 (Or.inl ⟨rfl, hN16'⟩)
  rw [hf] at hf2
  simp only [Option.some.injEq, Prod.mk.injEq] at hf2
  obtain ⟨rfl, rfl⟩ := hf2
  obtain ⟨-, -, hends⟩ := find_update_ends _ _ _ _ _ hf
  -- the key is not on the chain
  have hknot : ∀ q, q ∈ ch → valueAt s.mem q ≠ k := by
    intro q hq
    rw [hl] at hq
    rcases List.mem_append.mp hq with h1 | h1
    · have := hpre q h1; omega
    · have := hpost q h1; omega
  -- the blocks recorded in `update` for the lanes of the new block
  have hU : ∀ j, j < lvl.toNat → ∃ u, getUpdate upd' j = some u ∧
      (u = s.list.head ∨ valueAt s.mem u < k) ∧
      (readFwd s.mem u j = some none ∨ ∃ q cq, readFwd s.mem u j = some (some q) ∧
        q ≠ s.list.head ∧ deref s.mem q = some cq ∧ (j : Int) < cq.level ∧ k < cq.value) := by
    intro j hj
    have hold : j < s.list.level.toNat → ∃ u, getUpdate updf j = some u ∧
        (u = s.list.head ∨ valueAt s.mem u < k) ∧
        (readFwd s.mem u j = some none ∨ ∃ q cq, readFwd s.mem u j = some (some q) ∧
          q ≠ s.list.head ∧ deref s.mem q = some cq ∧ (j : Int) < cq.level ∧ k < cq.value) := by
      intro hjn
      obtain ⟨b, hb, hbhas⟩ := hhas j hjn
      obtain ⟨b', hb', hstop, hbv⟩ := hends j hjn
      rw [hb] at hb'
      cases hb'
      refine ⟨b, hb, ?_, ?_⟩
      · rcases hbv with h1 | ⟨c, hc, hv⟩
        · exact Or.inl h1
        · exact Or.inr (by rw [valueAt_of_deref hc]; exact hv)
      · rcases hg.next b (j + 1) j hbhas (by omega) with h1 | ⟨q, cq, h1, h2, h3, h4, _⟩
        · exact Or.inl h1
        · right
          refine ⟨q, cq, h1, h2, h3, h4, ?_⟩
          have hge : ¬ cq.value < k := by
            rcases hstop with h1' | ⟨y, c, h1', h2', h3'⟩
            · rw [h1] at h1'; simp at h1'
            · rw [h1] at h1'
              simp only [Option.some.injEq] at h1'
              subst h1'
              rw [h3] at h2'
              cases h2'
              exact h3'
          have hqch : q ∈ ch := by
            have : hdr s.mem q ≠ none := by rw [hdr_some h3]; simp
            rcases hg.lane0.all q this with h | h
            · exact absurd h h2
            · exact h
          have := hknot q hqch
          rw [valueAt_of_deref h3] at this
          omega
    rcases grow_spec hgrow with ⟨hlt, h0, _, h2, h3⟩ | ⟨h1, _, h2, h3⟩
    · by_cases hjn : j = s.list.level.toNat
      · refine ⟨s.list.head, by rw [getUpdate_setUpdate h3, if_pos hjn], Or.inl rfl, Or.inl ?_⟩
        rw [hjn]
        apply hg.top
        · omega
        · have := setUpdate_lt h3
          have hul := (find_update_frame _ _ _ _ _ hf).1
          rw [hul, update_init_length] at this
          exact this
      · obtain ⟨u, hu1, hu2⟩ := hold (toNat_succ_lt h0 h2 hj hjn)
        exact ⟨u, by rw [getUpdate_setUpdate h3, if_neg hjn]; exact hu1, hu2⟩
    · rw [h3]
      exact hold (toNat_le_lt h1 h2 hj)
  obtain ⟨cn, hcn, hcnv, hcnl, _⟩ := hdr_eq_some hnew
  simp only at hcnv hcnl
  have hlvl_le : lvl ≤ s'.list.level ∧ s.list.level ≤ s'.list.level ∧
      s'.list.level ≤ (MAXLEVEL : Int) := by
    have := hg.level_le
    rcases grow_spec hgrow with ⟨hlt, h0, h1, h2, _⟩ | ⟨h0, h1, h2, _⟩ <;> omega
  refine ⟨pre, post, hl, ⟨hlane, ?_, hlvl_le.2.2, ?_, ?_⟩, hpre, hpost, hvnew, hval⟩
  · have := hg.level_ge
    omega
  · -- every pointer is in order
    intro p n i hp hi
    by_cases hpn : p = s.mem.length
    · -- the new block
      subst hpn
      have hilvl : i < lvl.toNat := by
        rcases hp with ⟨h1, _⟩ | ⟨_, c, h2, h3⟩
        · rw [hhead] at h1; omega
        · rw [hcn] at h2
          cases h2
          omega
      obtain ⟨u, hu1, _, hu3, _⟩ := hrdn i hilvl
      obtain ⟨u', hu1', _, hnext⟩ := hU i hilvl
      rw [hu1] at hu1'
      cases hu1'
      rcases hnext with h1 | ⟨q, cq, h1, h2, h3, h4, h5⟩
      · exact Or.inl (by rw [hu3, h1])
      · right
        have hq : hdr s'.mem q = hdr s.mem q := hhdr q (deref_lt h3)
        obtain ⟨cq', hcq', hv, hlv, _⟩ := deref_of_hdr_eq hq h3
        refine ⟨q, cq', by rw [hu3, h1], by rw [hhead]; exact h2, hcq', by rw [hlv]; exact h4, ?_⟩
        intro _
        rw [hvnew, hv]
        exact h5
    · -- an older block
      have hplt : p < s.mem.length := by
        have : hdr s'.mem p ≠ none := by
          rcases hp with ⟨h1, _⟩ | ⟨_, c, h2, _⟩
          · rw [h1, hhead, hhdr _ hheadlive]
            intro hc
            obtain ⟨c, hc', _⟩ := readFwd_live hr
            have hx := hdr_live_lt (m := s.mem) (p := s.list.head)
            have : ∃ c, deref s.mem s.list.head = some c := by
              by_cases hN0 : 0 < s.list.level.toNat
              · exact find_update_start_live hN0 hf
              · have hN0' : s.list.level.toNat = 0 := by omega
                rw [hN0'] at hf
                simp only [find_update, Option.some.injEq, Prod.mk.injEq] at hf
                rw [hf.1]; exact ⟨c, hc'⟩
            obtain ⟨ch', hch'⟩ := this
            rw [hdr_some hch'] at hc
            simp at hc
          · rw [hdr_some h2]; simp
        have := hdr_live_lt this
        omega
      have hpold : Has s p n := Has_of_hdr hhead (hhdr p hplt) hp
      have hvp : valueAt s'.mem p = valueAt s.mem p := valueAt_of_hdr (hhdr p hplt)
      rw [Next, hrd p i hplt, hhead]
      by_cases hc : i < lvl.toNat ∧ getUpdate upd' i = some p
      · rw [if_pos hc]
        right
        refine ⟨s.mem.length, cn, rfl, by omega, hcn, by rw [hcnl]; omega, ?_⟩
        intro hph
        obtain ⟨u, hu1, hu2, _⟩ := hU i hc.1
        rw [hc.2] at hu1
        cases hu1
        rw [hvp, hcnv]
        rcases hu2 with h1 | h1
        · exact absurd h1 hph
        · exact h1
      · rw [if_neg hc]
        rcases hg.next p n i hpold hi with h1 | ⟨q, cq, h1, h2, h3, h4, h5⟩
        · exact Or.inl h1
        · right
          have hq : hdr s'.mem q = hdr s.mem q := hhdr q (deref_lt h3)
          obtain ⟨cq', hcq', hv, hlv, _⟩ := deref_of_hdr_eq hq h3
          refine ⟨q, cq', h1, h2, hcq', by rw [hlv]; exact h4, ?_⟩
          intro hph
          rw [hvp, hv]
          exact h5 hph
  · -- the lanes from the level on are empty
    intro i hi1 hi2
    rw [hhead, hrd _ i hheadlive, if_neg]
    · apply hg.top i _ hi2
      omega
    · rintro ⟨h1, _⟩
      omega

/-- When the block after the end of the search does not hold the key,
every block after it has a larger value. -/
theorem Lane0_post_gt {s : State} {ch pre post : List Nat} {k : Int} {x0 : Option Nat}
    (hinv : Lane0 s ch) (hl : ch = pre ++ post) (hx0 : x0 = post.head?)
    (hge : ∀ a, a ∈ post → ¬ valueAt s.mem a < k)
    (hk : holds_key s.mem x0 k = some false) : ∀ a, a ∈ post → k < valueAt s.mem a := by
  intro a ha
  cases hpost' : post with
  | nil => rw [hpost'] at ha; simp at ha
  | cons y r =>
    rw [hpost'] at hx0 ha
    simp only [List.head?_cons] at hx0
    have hyk : valueAt s.mem y ≠ k := by
      rcases holds_key_false hk with h1 | ⟨y', c, h1, h2, h3⟩
      · rw [hx0] at h1; cases h1
      · rw [hx0] at h1
        cases h1
        rw [valueAt_of_deref h2]; exact h3
    have hyge := hge y (by rw [hpost']; exact List.mem_cons_self _ _)
    rcases List.mem_cons.mp ha with rfl | ha'
    · omega
    · have hsorted := hinv.sorted
      rw [hl, hpost', List.map_append, List.pairwise_append] at hsorted
      have := hsorted.2.1
      simp only [List.map_cons, List.pairwise_cons] at this
      have := this.1 (valueAt s.mem a) (List.mem_map_of_mem _ ha')
      omega

/-- On a list built by insertions `insert` always returns: with
`ERROR_DUPLICATE` and the list untouched when the key is on lane 0, with
`OK` otherwise. -/
theorem insert_total {s : State} {ch : List Nat} (k : Int) {rl : Int} (hg : Good s ch)
    (hrl : 1 ≤ rl) (hrl2 : rl ≤ (MAXLEVEL : Int)) :
    (k ∈ ch.map (valueAt s.mem) ∧ insert s k rl = some (ret_codes.ERROR_DUPLICATE, s)) ∨
      (k ∉ ch.map (valueAt s.mem) ∧ ∃ s', insert s k rl = some (ret_codes.OK, s')) := by
  have h0 := hg.level_ge
  have h16 := hg.level_le
  have hN16 : s.list.level.toNat ≤ update_init.length := by
    rw [update_init_length]; omega
  have hN16' : s.list.level.toNat ≤ MAXLEVEL := by rw [← update_init_length]; exact hN16
  obtain ⟨xf, updf, hf, hhas⟩ := find_update_defined hg k s.list.level.toNat s.list.head
    update_init hN16 (Or.inl ⟨rfl, hN16'⟩)
  obtain ⟨-, hz, -⟩ := find_update_ends _ _ _ _ _ hf
  obtain ⟨hulen, -⟩ := find_update_frame _ _ _ _ _ hf
  have hxf1 : Has s xf 1 := by
    by_cases hN : 0 < s.list.level.toNat
    · obtain ⟨b, hb, hbh⟩ := hhas 0 hN
      rw [hz hN] at hb
      cases hb
      exact hbh
    · have hN0 : s.list.level.toNat = 0 := by omega
      have hf' := hf
      rw [hN0] at hf'
      simp only [find_update, Option.some.injEq, Prod.mk.injEq] at hf'
      rw [← hf'.1]
      exact Or.inl ⟨rfl, by simp [MAXLEVEL]⟩
  -- the block after the end of the search
  have hx0 : ∃ x0 b, readFwd s.mem xf 0 = some x0 ∧ holds_key s.mem x0 k = some b := by
    rcases hg.next xf 1 0 hxf1 (by omega) with h1 | ⟨q, cq, h1, _, h3, _, _⟩
    · exact ⟨none, false, h1, rfl⟩
    · exact ⟨some q, decide (cq.value = k), h1, by simp [holds_key, h3]⟩
  obtain ⟨x0, b, hr, hk⟩ := hx0
  obtain ⟨pre, post, hl, -, -, -, hx0, -, hpre, hpost_ge⟩ := Lane0_split hg.lane0 hf hr
  cases b with
  | true =>
    left
    refine ⟨?_, insert_dup_of rl hf hr hk⟩
    obtain ⟨y, c, rfl, hc, hv⟩ := holds_key_true hk
    have hy : y ∈ post := by
      cases post with
      | nil => simp at hx0
      | cons a r =>
        simp only [List.head?_cons, Option.some.injEq] at hx0
        rw [hx0]; exact List.mem_cons_self _ _
    rw [List.mem_map]
    exact ⟨y, by rw [hl]; exact List.mem_append_right _ hy, by rw [valueAt_of_deref hc]; exact hv⟩
  | false =>
    right
    have hpost_gt := Lane0_post_gt hg.lane0 hl hx0 hpost_ge hk
    constructor
    · intro hin
      obtain ⟨a, ha, hak⟩ := List.mem_map.mp hin
      rw [hl] at ha
      rcases List.mem_append.mp ha with h1 | h1
      · have := hpre a h1; omega
      · have := hpost_gt a h1; omega
    · -- the level drawn
      have hgrow : ∃ level' lvl upd', grow s.list rl updf = some (level', lvl, upd') := by
        unfold grow
        by_cases hgt : rl > s.list.level
        · rw [if_pos hgt, if_neg (by omega)]
          have e : s.list.level + 1 - 1 = s.list.level := by omega
          rw [e, setUpdate_defined s.list.head (show s.list.level.toNat < updf.length by
            rw [hulen, update_init_length]; simp only [MAXLEVEL] at hrl2 ⊢; omega)]
          exact ⟨_, _, _, rfl⟩
        · rw [if_neg hgt]
          exact ⟨_, _, _, rfl⟩
      obtain ⟨level', lvl, upd', hgrow⟩ := hgrow
      have hlvl : 1 ≤ lvl := by
        rcases grow_spec hgrow with ⟨_, _, _, h2, _⟩ | ⟨_, _, h2, _⟩ <;> omega
      have hmk : make_node s.mem lvl k = some (s.mem ++ [some (new_cell lvl k)], s.mem.length) := by
        unfold make_node
        rw [if_neg (by omega)]
      have hrange : ∀ i, i ∈ List.range lvl.toNat ↔ i < lvl.toNat := fun i => List.mem_range
      have hlink : ∃ m2, link_loop upd' s.mem.length (List.range lvl.toNat)
          (s.mem ++ [some (new_cell lvl k)]) = some m2 := by
        apply link_loop_defined
        · refine ⟨(k, lvl, lvl.toNat + 1), ?_, ?_⟩
          · rw [hdr_some (deref_append_new s.mem (new_cell lvl k))]
            simp [new_cell]
          · intro j hj
            have := (hrange j).mp hj
            simp only
            omega
        · intro j hj
          have hjl := (hrange j).mp hj
          have hold : j < s.list.level.toNat → ∃ u, getUpdate updf j = some u ∧
              (readFwd (s.mem ++ [some (new_cell lvl k)]) u j).isSome := by
            intro hjn
            obtain ⟨b, hb, hbh⟩ := hhas j hjn
            refine ⟨b, hb, ?_⟩
            have hsome : ∃ v, readFwd s.mem b j = some v := by
              rcases hg.next b (j + 1) j hbh (by omega) with h1 | ⟨q, cq, h1, _⟩
              · exact ⟨_, h1⟩
              · exact ⟨_, h1⟩
            obtain ⟨v, hv⟩ := hsome
            obtain ⟨c, hc, _⟩ := readFwd_live hv
            rw [readFwd_append_left _ _ _ _ (deref_lt hc), hv]
            rfl
          rcases grow_spec hgrow with ⟨hlt, _, _, h2, h3⟩ | ⟨h1, _, h2, h3⟩
          · by_cases hjn : j = s.list.level.toNat
            · refine ⟨s.list.head, by rw [getUpdate_setUpdate h3, if_pos hjn], ?_⟩
              have hhd : Has s s.list.head (j + 1) := by
                refine Or.inl ⟨rfl, ?_⟩
                simp only [MAXLEVEL] at hrl2 ⊢
                omega
              have hsome : ∃ v, readFwd s.mem s.list.head j = some v := by
                rcases hg.next _ (j + 1) j hhd (by omega) with h1 | ⟨q, cq, h1, _⟩
                · exact ⟨_, h1⟩
                · exact ⟨_, h1⟩
              obtain ⟨v, hv⟩ := hsome
              obtain ⟨c, hc, _⟩ := readFwd_live hv
              rw [readFwd_append_left _ _ _ _ (deref_lt hc), hv]
              rfl
            · obtain ⟨u, hu1, hu2⟩ := hold (toNat_succ_lt h0 h2 hjl hjn)
              exact ⟨u, by rw [getUpdate_setUpdate h3, if_neg hjn]; exact hu1, hu2⟩
          · rw [h3]
            exact hold (toNat_le_lt h1 h2 hjl)
      obtain ⟨m2, hm2⟩ := hlink
      refine ⟨{ mem := m2, list := { s.list with level := level' } }, ?_⟩
      unfold insert
      simp only [hf, hr, hk, hgrow, hmk, hm2]

/-- One insertion into a list built by insertions: the return code, the
invariant, and the keys of lane 0 afterwards. -/
theorem insert_step {s : State} {ch : List Nat} (k : Int) {rl : Int} (hg : Good s ch)
    (hrl : 1 ≤ rl) (hrl2 : rl ≤ (MAXLEVEL : Int)) :
    ∃ s' ch', insert s k rl =
        some (if k ∈ ch.map (valueAt s.mem) then ret_codes.ERROR_DUPLICATE else ret_codes.OK, s') ∧
      Good s' ch' ∧
      ∀ k', k' ∈ ch'.map (valueAt s'.mem) ↔ k' = k ∨ k' ∈ ch.map (valueAt s.mem) := by
  rcases insert_total k hg hrl hrl2 with ⟨hin, hi⟩ | ⟨hnin, s', hi⟩
  · refine ⟨s, ch, by rw [if_pos hin]; exact hi, hg, ?_⟩
    intro k'
    constructor
    · exact fun h => Or.inr h
    · rintro (h | h)
      · rw [h]; exact hin
      · exact h
  · obtain ⟨pre, post, hl, hg', _, _, hvnew, hval⟩ := Good_insert hg hrl hrl2 hi
    refine ⟨s', _, by rw [if_neg hnin]; exact hi, hg', ?_⟩
    intro k'
    have hmap1 : pre.map (valueAt s'.mem) = pre.map (valueAt s.mem) :=
      List.map_congr_left (fun a ha => hval a (by rw [hl]; exact List.mem_append_left _ ha))
    have hmap2 : post.map (valueAt s'.mem) = post.map (valueAt s.mem) :=
      List.map_congr_left (fun a ha => hval a (by rw [hl]; exact List.mem_append_right _ ha))
    rw [List.map_append, List.map_cons, hmap1, hmap2, hvnew, hl, List.map_append]
    simp only [List.mem_append, List.mem_cons]
    tauto

theorem Good_setup (l0 : slist) (h0 : 0 ≤ l0.level) (h16 : l0.level ≤ (MAXLEVEL : Int)) :
    Good (setup_list l0) [] := by
  have hrd : ∀ i, i < MAXLEVEL → readFwd (setup_list l0).mem 0 i = some none := by
    intro i hi
    have e : (List.replicate MAXLEVEL (some (none : Option Nat)) ++ [none])[i]? =
        some (some none) := by
      rw [List.getElem?_append_left (by simpa using hi), List.getElem?_replicate, if_pos hi]
    show ((List.replicate MAXLEVEL (some (none : Option Nat)) ++ [none])[i]?).join = some none
    rw [e]
    rfl
  refine ⟨Lane0_setup l0, h0, h16, ?_, ?_⟩
  · intro p n i hp hi
    rcases hp with ⟨h1, h2⟩ | ⟨h1, c, h2, _⟩
    · left
      rw [h1]
      exact hrd i (by omega)
    · exfalso
      have := deref_lt h2
      simp only [setup_list, List.length_singleton] at this
      apply h1
      show p = 0
      omega
  · intro i _ hi
    exact hrd i hi

/-- A sequence of insertions into a list built by insertions: every call
returns, with the codes of `dup_codes`, and lane 0 ends up holding the
keys held before and the keys inserted. -/
theorem run_inserts :
    ∀ (ins : List (Int × Int)) (s : State) (ch : List Nat) (seen : List Int),
      Good s ch → (∀ k, k ∈ seen ↔ k ∈ ch.map (valueAt s.mem)) →
      (∀ p, p ∈ ins → 1 ≤ p.2 ∧ p.2 ≤ (MAXLEVEL : Int)) →
      ∃ s' ch', run s (ins.map (fun p => Op.ins p.1 p.2)) =
          some (dup_codes seen (ins.map Prod.fst), s') ∧
        Good s' ch' ∧
        ∀ k, k ∈ ch'.map (valueAt s'.mem) ↔ k ∈ seen ∨ k ∈ ins.map Prod.fst := by
  intro ins
  induction ins with
  | nil =>
    intro s ch seen hg hseen _
    exact ⟨s, ch, rfl, hg, fun k => by simp [hseen k]⟩
  | cons p rest ih =>
    intro s ch seen hg hseen hh
    obtain ⟨h1, h2⟩ := hh p (List.mem_cons_self _ _)
    obtain ⟨s1, ch1, hi, hg1, hmem1⟩ := insert_step p.1 hg h1 h2
    obtain ⟨s', ch', hrun, hg', hmem'⟩ := ih s1 ch1 (p.1 :: seen) hg1
      (fun k => by rw [hmem1 k, List.mem_cons, hseen k])
      (fun q hq => hh q (List.mem_cons_of_mem _ hq))
    refine ⟨s', ch', ?_, hg', ?_⟩
    · simp only [List.map_cons, run, step, hi, hrun, dup_codes]
      have e : (p.1 ∈ seen) ↔ (p.1 ∈ ch.map (valueAt s.mem)) := hseen p.1
      by_cases hc : p.1 ∈ seen
      · rw [if_pos hc, if_pos (e.mp hc)]
      · rw [if_neg hc, if_neg (fun h => hc (e.mpr h))]
    · intro k
      rw [hmem' k]
      simp only [List.map_cons, List.mem_cons]
      tauto

/-! ## The level -/

theorem insert_level {s s' : State} {k rl : Int} {r : ret_codes}
    (h : insert s k rl = some (r, s')) :
    s.list.level ≤ s'.list.level ∧ s'.list.level ≤ s.list.level + 1 := by
  rcases insert_code h with rfl | rfl
  · obtain ⟨xf, updf, x0, level', lvl, upd', m2, -, -, -, hg, -, -, rfl⟩ := insert_ok_inv h
    rcases grow_spec hg with ⟨_, _, h1, _, _⟩ | ⟨_, h1, _, _⟩
    · simp only [h1]; omega
    · simp only [h1]; omega
  · rw [(insert_dup_inv h).1]
    omega

/-- A sequence of insertions into a list built by insertions: the level
after each call is the level before it or one more, and it ends within
`MAXLEVEL` and within the starting level plus the number of calls. -/
theorem run_inserts_levels :
    ∀ (ins : List (Int × Int)) (s : State) (ch : List Nat),
      Good s ch → (∀ p, p ∈ ins → 1 ≤ p.2 ∧ p.2 ≤ (MAXLEVEL : Int)) →
      ∃ rs s' ls, run s (ins.map (fun p => Op.ins p.1 p.2)) = some (rs, s') ∧
        levels_after s (ins.map (fun p => Op.ins p.1 p.2)) = some ls ∧
        List.Chain (fun a b => a ≤ b ∧ b ≤ a + 1) s.list.level ls ∧
        s'.list.level ≤ s.list.level + (ins.length : Int) ∧
        s'.list.level ≤ (MAXLEVEL : Int) := by
  intro ins
  induction ins with
  | nil =>
    intro s ch hg _
    exact ⟨[], s, [], rfl, rfl, List.Chain.nil, by simp, hg.level_le⟩
  | cons p rest ih =>
    intro s ch hg hh
    obtain ⟨h1, h2⟩ := hh p (List.mem_cons_self _ _)
    obtain ⟨s1, ch1, hi, hg1, -⟩ := insert_step p.1 hg h1 h2
    obtain ⟨rs, s', ls, hrun, hlv, hchain, hle, h16⟩ := ih s1 ch1 hg1
      (fun q hq => hh q (List.mem_cons_of_mem _ hq))
    obtain ⟨r, hr⟩ : ∃ r, insert s p.1 p.2 = some (r, s1) := ⟨_, hi⟩
    have hstep := insert_level hr
    refine ⟨r :: rs, s', s1.list.level :: ls, ?_, ?_, List.Chain.cons hstep hchain, ?_, h16⟩
    · simp only [List.map_cons, run, step, hr, hrun]
    · simp only [List.map_cons, levels_after, step, hr, hlv]
    · simp only [List.length_cons, Nat.cast_add, Nat.cast_one]
      omega

/-! ## The function `random_level` -/

theorem random_level_loop_spec (rand : Nat → Nat) :
    ∀ (fuel pos N : Nat) (lvl : Int), lvl ≤ (MAXLEVEL : Int) →
      ((MAXLEVEL : Int) - lvl).toNat < fuel → ((MAXLEVEL : Int) - lvl).toNat ≤ N →
      random_level_loop rand fuel pos lvl =
        some (min (MAXLEVEL : Int) (lvl + (leading_even (fun i => rand (pos + i)) N : Nat))) := by
  intro fuel
  induction fuel with
  | zero => intro pos N lvl _ h _; omega
  | succ f ih =>
    intro pos N lvl hle hf hN
    unfold random_level_loop
    by_cases hc : rand pos &&& 1 = 0 ∧ lvl < (MAXLEVEL : Int)
    · rw [if_pos hc]
      obtain ⟨N', rfl⟩ : ∃ N', N = N' + 1 := ⟨N - 1, by omega⟩
      rw [ih (pos + 1) N' (lvl + 1) (by omega) (by omega) (by omega)]
      have hbit : rand (pos + 0) % 2 = 0 := by
        rw [← Nat.and_one_is_mod]; exact hc.1
      have hfun : (fun i => rand (pos + 1 + i)) = (fun i => rand (pos + (i + 1))) := by
        funext i
        congr 1
        omega
      simp only [leading_even, hbit, if_true, hfun]
      congr 2
      push_cast
      omega
    · rw [if_neg hc]
      by_cases hl : lvl < (MAXLEVEL : Int)
      · have hbit : ¬ rand (pos + 0) % 2 = 0 := by
          intro hb
          apply hc
          refine ⟨?_, hl⟩
          rw [Nat.and_one_is_mod]; exact hb
        obtain ⟨N', rfl⟩ : ∃ N', N = N' + 1 := ⟨N - 1, by omega⟩
        simp only [leading_even, hbit, if_false]
        congr 1
        simp only [Nat.cast_zero, add_zero]
        omega
      · congr 1
        have : (0 : Int) ≤ (leading_even (fun i => rand (pos + i)) N : Nat) := Int.natCast_nonneg _
        omega

/-! ## The lanes of the new block -/

theorem insert_ok_linked {s s' : State} {k rl : Int} (hrl : 1 ≤ rl)
    (h : insert s k rl = some (ret_codes.OK, s')) :
    ∃ lvl : Int,
      (s.list.level < rl → s'.list.level = s.list.level + 1 ∧ lvl = s.list.level + 1) ∧
      (rl ≤ s.list.level → s'.list.level = s.list.level ∧ lvl = rl) ∧
      Linked s s' k lvl := by
  obtain ⟨xf, updf, x0, lvl, upd', hf, hr, hk, hgrow, hlvl, hhead, hlen, hhdr, hnew, hrd, hrdn,
    hxf0, hheadlive⟩ := insert_ok_mem hrl h
  obtain ⟨xf1, updf1, x01, level1, lvl1, upd1, m2, hf1, -, -, hgrow1, -, hll, hs'⟩ := insert_ok_inv h
  rw [hf] at hf1
  simp only [Option.some.injEq, Prod.mk.injEq] at hf1
  obtain ⟨rfl, rfl⟩ := hf1
  rw [hgrow] at hgrow1
  simp only [Option.some.injEq, Prod.mk.injEq] at hgrow1
  obtain ⟨-, rfl, rfl⟩ := hgrow1
  refine ⟨lvl, ?_, ?_, hnew, ?_, ?_⟩
  · intro hlt
    rcases grow_spec hgrow with ⟨_, _, h1, h2, _⟩ | ⟨h0, _, _, _⟩
    · exact ⟨h1, h2⟩
    · omega
  · intro hle
    rcases grow_spec hgrow with ⟨h0, _, _, _, _⟩ | ⟨_, h1, h2, _⟩
    · omega
    · exact ⟨h1, h2⟩
  · intro j hj
    obtain ⟨u, hu1, hu2, hu3, hu4⟩ := hrdn j hj
    refine ⟨u, hu2, ?_, hu3, hu4, ?_⟩
    · rw [hrd u j hu2, if_pos ⟨hj, hu1⟩]
    · intro q hq hne
      rw [hrd q j hq, if_neg]
      rintro ⟨_, h2⟩
      rw [hu1] at h2
      exact hne (Option.some.inj h2).symm
  · intro j hj
    constructor
    · obtain ⟨_, _, hr3, _⟩ := link_loop_spec _ _ _ hll
      have hnot : j ∉ List.range lvl.toNat := by
        rw [List.mem_range]; omega
      rw [hs']
      show readFwd m2 s.mem.length j = none
      rw [hr3 _ j hnot]
      unfold readFwd
      rw [deref_append_new]
      simp only [new_cell]
      by_cases hjl : j < lvl.toNat + 1
      · rw [List.getElem?_replicate, if_pos hjl]
        rfl
      · rw [List.getElem?_eq_none (by simp; omega)]
        rfl
    · intro q hq
      rw [hrd q j hq, if_neg]
      rintro ⟨h1, _⟩
      omega

/-! ## The search path on a well-formed list -/

theorem lane_PathAt {m : Heap} {i : Nat} :
    ∀ (fuel p : Nat) (l : List Nat), lane m i fuel p = some l → PathAt m i p l none := by
  intro fuel
  induction fuel with
  | zero => intro p l h; simp [lane] at h
  | succ f ih =>
    intro p l h
    unfold lane at h
    cases hr : readFwd m p i with
    | none => simp [hr] at h
    | some v =>
      cases v with
      | none =>
        simp only [hr, Option.some.injEq] at h
        subst h
        exact hr
      | some q =>
        simp only [hr] at h
        cases hl : lane m i f q with
        | none => simp [hl] at h
        | some rest =>
          simp only [hl, Option.some.injEq] at h
          subst h
          exact ⟨hr, ih q rest hl⟩

theorem PathAt_unique {m : Heap} {i : Nat} :
    ∀ (l l' : List Nat) (p : Nat), PathAt m i p l none → PathAt m i p l' none → l = l' := by
  intro l
  induction l with
  | nil =>
    intro l' p h h'
    cases l' with
    | nil => rfl
    | cons a r =>
      simp only [PathAt] at h h'
      rw [h] at h'
      simp at h'
  | cons a r ih =>
    intro l' p h h'
    cases l' with
    | nil =>
      simp only [PathAt] at h h'
      rw [h'] at h
      simp at h
    | cons a' r' =>
      simp only [PathAt] at h h'
      have e : a = a' := by
        have := h.1
        rw [h'.1] at this
        simp only [Option.some.injEq] at this
        exact this.symm
      subst e
      rw [ih r' a h.2 h'.2]

theorem PathAt_suffix {m : Heap} {i x : Nat} {e : Option Nat} :
    ∀ (a b : List Nat) (p : Nat), PathAt m i p (a ++ x :: b) e → PathAt m i x b e := by
  intro a
  induction a with
  | nil => intro b p h; exact h.2
  | cons c r ih =>
    intro b p h
    exact ih b c h.2

theorem PathAt_start_notin {m : Heap} {i p : Nat} {l : List Nat} (h : PathAt m i p l none) :
    p ∉ l := by
  intro hin
  obtain ⟨a, b, hl⟩ := List.append_of_mem hin
  have hb : PathAt m i p b none := by
    rw [hl] at h
    exact PathAt_suffix a b p h
  have := PathAt_unique l b p h hb
  have hlen : l.length = b.length := by rw [← this]
  rw [hl] at hlen
  simp at hlen
  omega

theorem PathAt_live {m : Heap} {i : Nat} {e : Option Nat} :
    ∀ (l : List Nat) (p : Nat), PathAt m i p l e → ∀ q, q ∈ p :: l → ∃ c, deref m q = some c := by
  intro l
  induction l with
  | nil =>
    intro p h q hq
    simp only [List.mem_singleton] at hq
    subst hq
    obtain ⟨c, hc, _⟩ := readFwd_live h
    exact ⟨c, hc⟩
  | cons a r ih =>
    intro p h q hq
    rcases List.mem_cons.mp hq with rfl | hq
    · obtain ⟨c, hc, _⟩ := readFwd_live h.1
      exact ⟨c, hc⟩
    · exact ih a h.2 q hq

theorem PathAt_length_lt {m : Heap} {i p : Nat} {l : List Nat} (h : PathAt m i p l none)
    (hnd : l.Nodup) : l.length < m.length := by
  have h1 := nodup_length_le (p :: l) m.length
    (List.nodup_cons.mpr ⟨PathAt_start_notin h, hnd⟩)
    (fun q hq => by
      obtain ⟨c, hc⟩ := PathAt_live l p h q hq
      exact deref_lt hc)
  simp only [List.length_cons] at h1
  omega

/-- A walk of `advance` along a lane: past the blocks below the key, up
to the last of them. -/
theorem advance_along {m : Heap} {k : Int} {i : Nat} {post : List Nat} :
    ∀ (pre : List Nat) (x fuel : Nat), PathAt m i x (pre ++ post) none →
      (∀ a, a ∈ pre → valueAt m a < k) → (∀ a, a ∈ post → ¬ valueAt m a < k) →
      pre.length < fuel →
      advance m k i fuel x = some (pre.getLast?.getD x) ∧
        readFwd m (pre.getLast?.getD x) i = some post.head? := by
  intro pre
  induction pre with
  | nil =>
    intro x fuel h _ hpost hf
    obtain ⟨f, rfl⟩ : ∃ f, fuel = f + 1 := ⟨fuel - 1, by simp at hf; omega⟩
    simp only [List.nil_append] at h
    simp only [List.getLast?_nil, Option.getD_none]
    cases post with
    | nil =>
      simp only [PathAt] at h
      exact ⟨advance_succ_of_stop (Or.inl h) f, h⟩
    | cons y r =>
      simp only [PathAt] at h
      obtain ⟨c, hc⟩ := PathAt_live r y h.2 y (List.mem_cons_self _ _)
      have hy := hpost y (List.mem_cons_self _ _)
      rw [valueAt_of_deref hc] at hy
      exact ⟨advance_succ_of_stop (Or.inr ⟨y, c, h.1, hc, hy⟩) f, h.1⟩
  | cons a pre' ih =>
    intro x fuel h hpre hpost hf
    obtain ⟨f, rfl⟩ : ∃ f, fuel = f + 1 := ⟨fuel - 1, by omega⟩
    simp only [List.cons_append, PathAt] at h
    obtain ⟨c, hc⟩ := PathAt_live _ a h.2 a (List.mem_cons_self _ _)
    have ha := hpre a (List.mem_cons_self _ _)
    rw [valueAt_of_deref hc] at ha
    simp only [List.length_cons] at hf
    obtain ⟨h1, h2⟩ := ih a f h.2 (fun b hb => hpre b (List.mem_cons_of_mem _ hb)) hpost
      (by omega)
    have hlast : (a :: pre').getLast?.getD x = pre'.getLast?.getD a := by
      cases pre' with
      | nil => simp
      | cons b r =>
        have hne : (b :: r) ≠ [] := by simp
        rw [List.getLast?_cons_cons, List.getLast?_eq_getLast _ hne]
        rfl
    rw [hlast]
    refine ⟨?_, h2⟩
    unfold advance
    simp only [h.1, hc, if_pos ha]
    exact h1

/-- A list with strictly increasing values splits into the elements
below `k` and the elements not below `k`. -/
theorem split_sorted {α : Type} (v : α → Int) (k : Int) :
    ∀ (l : List α), (l.map v).Pairwise (fun a b => a < b) →
      ∃ pre post, l = pre ++ post ∧ (∀ a, a ∈ pre → v a < k) ∧ (∀ a, a ∈ post → ¬ v a < k) := by
  intro l
  induction l with
  | nil => intro _; exact ⟨[], [], rfl, by simp, by simp⟩
  | cons a r ih =>
    intro h
    simp only [List.map_cons, List.pairwise_cons] at h
    by_cases ha : v a < k
    · obtain ⟨pre, post, hl, h1, h2⟩ := ih h.2
      refine ⟨a :: pre, post, by rw [hl]; rfl, ?_, h2⟩
      intro b hb
      rcases List.mem_cons.mp hb with rfl | hb
      · exact ha
      · exact h1 b hb
    · refine ⟨[], a :: r, rfl, by simp, ?_⟩
      intro b hb
      rcases List.mem_cons.mp hb with rfl | hb
      · exact ha
      · have := h.1 (v b) (List.mem_map_of_mem _ hb)
        omega

theorem getLast?_getD_cons {α : Type} (x d : α) (c : List α) :
    (x :: c).getLast?.getD d = c.getLast?.getD x := by
  cases c with
  | nil => simp
  | cons b r =>
    have hne : (b :: r) ≠ [] := by simp
    rw [List.getLast?_cons_cons, List.getLast?_eq_getLast _ hne]
    rfl

theorem getLast?_getD_append_cons {α : Type} (x : α) (c : List α) :
    ∀ (a : List α) (d : α), (a ++ x :: c).getLast?.getD d = c.getLast?.getD x := by
  intro a
  induction a with
  | nil => intro d; exact getLast?_getD_cons x d c
  | cons y r ih =>
    intro d
    rw [List.cons_append, getLast?_getD_cons]
    exact ih y

theorem getLast?_getD_mem {α : Type} (d : α) (l : List α) :
    l.getLast?.getD d = d ∨ l.getLast?.getD d ∈ l := by
  cases l with
  | nil => left; simp
  | cons b r =>
    right
    have hne : (b :: r) ≠ [] := by simp
    rw [List.getLast?_eq_getLast _ hne]
    exact List.getLast_mem hne

/-- The search loop of `insert` and `delete` on a list whose lanes below
the level are in strictly increasing order, each inside the lane below
it: on every lane the loop stops at the last block below the key (the
head if there is none), whose pointer leads to the first block not below
the key. -/
theorem find_update_wf {s : State} {k : Int} {L : Nat → List Nat}
    (h16 : s.list.level.toNat ≤ MAXLEVEL)
    (hP : ∀ i, i < s.list.level.toNat → PathAt s.mem i s.list.head (L i) none)
    (hs : ∀ i, i < s.list.level.toNat →
      ((L i).map (valueAt s.mem)).Pairwise (fun a b => a < b))
    (hsub : ∀ i, i + 1 < s.list.level.toNat → ∀ a, a ∈ L (i + 1) → a ∈ L i) :
    ∀ (n : Nat), n ≤ s.list.level.toNat → ∀ (x : Nat) (upd : Update),
      upd.length = MAXLEVEL →
      (x = s.list.head ∨ (n < s.list.level.toNat ∧ x ∈ L n ∧ valueAt s.mem x < k)) →
      ∃ xf updf, find_update s.mem k n x upd = some (xf, updf) ∧
        ∀ i, i < n → ∃ pre post u, L i = pre ++ post ∧
          (∀ a, a ∈ pre → valueAt s.mem a < k) ∧ (∀ a, a ∈ post → ¬ valueAt s.mem a < k) ∧
          getUpdate updf i = some u ∧ u = pre.getLast?.getD s.list.head ∧
          readFwd s.mem u i = some post.head? := by
  intro n
  induction n with
  | zero =>
    intro _ x upd _ _
    exact ⟨x, upd, rfl, fun i hi => absurd hi (by omega)⟩
  | succ i ih =>
    intro hn x upd hlen hx
    have hiN : i < s.list.level.toNat := by omega
    obtain ⟨pre, post, hl, hpre, hpost⟩ := split_sorted (valueAt s.mem) k (L i) (hs i hiN)
    have hpath := hP i hiN
    have hnd : (L i).Nodup := by
      have := hs i hiN
      rw [List.pairwise_map] at this
      exact this.imp (fun {a b} hab heq => by rw [heq] at hab; exact lt_irrefl _ hab)
    have hlt := PathAt_length_lt hpath hnd
    have hprelen : pre.length ≤ (L i).length := by rw [hl]; simp
    -- the walk on lane `i`
    have hwalk : advance s.mem k i s.mem.length x = some (pre.getLast?.getD s.list.head) ∧
        readFwd s.mem (pre.getLast?.getD s.list.head) i = some post.head? := by
      rcases hx with rfl | ⟨hn1, hxL, hxk⟩
      · rw [hl] at hpath
        exact advance_along pre _ _ hpath hpre hpost (by omega)
      · have hxi : x ∈ L i := hsub i hn1 x hxL
        have hxpre : x ∈ pre := by
          rw [hl] at hxi
          rcases List.mem_append.mp hxi with h | h
          · exact h
          · exact absurd hxk (hpost x h)
        obtain ⟨a, c, hac⟩ := List.append_of_mem hxpre
        rw [hl, hac, List.append_assoc, List.cons_append] at hpath
        have hsuf := PathAt_suffix a (c ++ post) _ hpath
        have hc : ∀ b, b ∈ c → valueAt s.mem b < k := by
          intro b hb
          apply hpre
          rw [hac]
          exact List.mem_append_right _ (List.mem_cons_of_mem _ hb)
        have hclen : c.length ≤ pre.length := by
          rw [hac, List.length_append, List.length_cons]
          omega
        have := advance_along c x s.mem.length hsuf hc hpost (by omega)
        rw [hac, getLast?_getD_append_cons]
        exact this
    obtain ⟨hadv, hnext⟩ := hwalk
    have hset := setUpdate_defined (pre.getLast?.getD s.list.head)
      (show i < upd.length by rw [hlen]; omega)
    have hu : pre.getLast?.getD s.list.head = s.list.head ∨
        (i < s.list.level.toNat ∧ pre.getLast?.getD s.list.head ∈ L i ∧
          valueAt s.mem (pre.getLast?.getD s.list.head) < k) := by
      rcases getLast?_getD_mem s.list.head pre with h | h
      · exact Or.inl h
      · exact Or.inr ⟨hiN, by rw [hl]; exact List.mem_append_left _ h, hpre _ h⟩
    obtain ⟨xf, updf, hf, hrest⟩ := ih (by omega) (pre.getLast?.getD s.list.head)
      (upd.set i (some (pre.getLast?.getD s.list.head))) (by simp [hlen]) hu
    refine ⟨xf, updf, ?_, ?_⟩
    · unfold find_update
      simp only [hadv, hset]
      exact hf
    · intro j hj
      by_cases hji : j < i
      · exact hrest j hji
      · have hji' : j = i := by omega
        subst hji'
        obtain ⟨_, hfr⟩ := find_update_frame _ _ _ _ _ hf
        refine ⟨pre, post, _, hl, hpre, hpost, ?_, rfl, hnext⟩
        rw [hfr j (le_refl _), getUpdate_setUpdate hset, if_pos rfl]

/-! ## The claims -/

/-- Claim C1, evaluated on a reachable list.  From `setup_list` with
level 1, the calls `insert(1)` (height 2), `insert(3)`, `insert(5)`
(height 1), `delete(5)`, `delete(1)`, `delete(3)`, `insert(0)` (height 2)
all return `OK` and leave the single key 0 on lane 0; `search(3)` then
has no defined result: on lane 1 it follows the pointer that `delete(1)`
left behind to the freed block of key 1. -/
theorem search_reads_freed_block :
    (run (setup_list { head := 0, level := 1 })
        [Op.ins 1 2, Op.ins 3 1, Op.ins 5 1, Op.del 5, Op.del 1, Op.del 3, Op.ins 0 2]).map
      (fun p => (p.1, lane_keys p.2 0, search p.2 3)) =
    some ([ret_codes.OK, ret_codes.OK, ret_codes.OK, ret_codes.OK, ret_codes.OK,
           ret_codes.OK, ret_codes.OK], some [0], none) := by
  decide

/-- Claim C2.  Whenever `insert(list, k)` with a drawn height of at
least 1 returns `OK`, on any list at all (reachable or not), the
following `search(list, k)` returns the block that this insert
allocated: its address was free before the call and it holds the value
`k` after it. -/
theorem insert_then_search (s s' : State) (k rl : Int) (hrl : 1 ≤ rl)
    (h : insert s k rl = some (ret_codes.OK, s')) :
    search s' k = some (some s.mem.length) ∧ deref s.mem s.mem.length = none ∧
      ∃ c, deref s'.mem s.mem.length = some c ∧ c.value = k := by
  obtain ⟨xf, u, c, hf, hr, hc, hv, hfree⟩ := insert_ok_path hrl h
  refine ⟨?_, hfree, c, hc, hv⟩
  unfold search
  have hk : holds_key s'.mem (some s.mem.length) k = some true := by
    simp [holds_key, hc, hv]
  simp only [find_update_search_loop _ _ _ _ _ hf, hr, hk]

theorem insert_then_search_witness :
    search { mem := [some { value := 0, level := 0,
                            forward := some (some 1) :: (List.replicate 15 (some none) ++ [none]) },
                     some { value := 5, level := 1, forward := [some none, none] }],
             list := { head := 0, level := 1 } } 5 =
        some (some (setup_list { head := 0, level := 1 }).mem.length) ∧
      deref (setup_list { head := 0, level := 1 }).mem
        (setup_list { head := 0, level := 1 }).mem.length = none ∧
      ∃ c, deref [some { value := 0, level := 0,
                         forward := some (some 1) :: (List.replicate 15 (some none) ++ [none]) },
                  some { value := 5, level := 1, forward := [some none, none] }]
            (setup_list { head := 0, level := 1 }).mem.length = some c ∧ c.value = 5 :=
  insert_then_search (setup_list { head := 0, level := 1 }) _ 5 1 (by decide) (by decide)

/-- Claim C3, evaluated on a reachable list.  From `setup_list` with
level 1, the calls `insert(1)` (height 1), `insert(2)` (2), `delete(1)`,
`insert(3)` (2), `insert(4)` (3), `delete(2)`, `insert(1)` (3), and then
`insert(5)` (1) and `delete(5)`, all return `OK`; the `search(5)` made
after that delete has no defined result: `delete(5)` lowered the level
to 2, and lane 1 leads from the block of key 3 to the freed block of
key 2, which `delete(2)` did not unlink from that lane. -/
theorem search_after_insert_delete_reads_freed_block :
    (run (setup_list { head := 0, level := 1 })
        [Op.ins 1 1, Op.ins 2 2, Op.del 1, Op.ins 3 2, Op.ins 4 3, Op.del 2, Op.ins 1 3,
         Op.ins 5 1, Op.del 5]).map
      (fun p => (p.1, lane_keys p.2 0, search p.2 5)) =
    some ([ret_codes.OK, ret_codes.OK, ret_codes.OK, ret_codes.OK, ret_codes.OK,
           ret_codes.OK, ret_codes.OK, ret_codes.OK, ret_codes.OK], some [1, 3, 4], none) := by
  decide

/-- Claim C4.  On any list at all (reachable or not), after a call
`insert(list, k)` with a drawn height of at least 1 has returned, with
whatever code, a second `insert(list, k)` returns `ERROR_DUPLICATE` and
the memory and the `slist` variable after it are exactly those before
it, so that lane 0 keeps its length. -/
theorem insert_twice_duplicate (s s' : State) (k rl rl' : Int) (r : ret_codes) (hrl : 1 ≤ rl)
    (h : insert s k rl = some (r, s')) :
    insert s' k rl' = some (ret_codes.ERROR_DUPLICATE, s') := by
  rcases insert_code h with rfl | rfl
  · obtain ⟨xf, u, c, hf, hr, hc, hv, _⟩ := insert_ok_path hrl h
    exact insert_dup_of rl' hf hr (by simp [holds_key, hc, hv])
  · obtain ⟨rfl, xf, updf, x0, hf, hr, hk⟩ := insert_dup_inv h
    exact insert_dup_of rl' hf hr hk

theorem insert_twice_duplicate_witness :
    insert { mem := [some { value := 0, level := 0,
                            forward := some (some 1) :: some (some 1) ::
                              (List.replicate 14 (some none) ++ [none]) },
                     some { value := 8, level := 2, forward := [some none, some none, none] }],
             list := { head := 0, level := 2 } } 8 1 =
      some (ret_codes.ERROR_DUPLICATE,
        { mem := [some { value := 0, level := 0,
                         forward := some (some 1) :: some (some 1) ::
                           (List.replicate 14 (some none) ++ [none]) },
                  some { value := 8, level := 2, forward := [some none, some none, none] }],
          list := { head := 0, level := 2 } }) :=
  insert_twice_duplicate (setup_list { head := 0, level := 1 }) _ 8 3 1 ret_codes.OK
    (by decide) (by decide)

/-- Claim C5, evaluated on a reachable list.  From `setup_list` with
level 1, the calls `insert(10)` (height 2), `insert(30)`, `insert(50)`
(height 1), `delete(50)`, `delete(10)`, `delete(30)`, `insert(5)`
(height 2) all return `OK` and leave the single key 5 on lane 0;
`delete(30)`, for a key that is not on lane 0, then has no defined
result instead of `ERROR_NOT_FOUND`: its search loop follows lane 1 into
the freed block of key 10. -/
theorem delete_absent_key_reads_freed_block :
    (run (setup_list { head := 0, level := 1 })
        [Op.ins 10 2, Op.ins 30 1, Op.ins 50 1, Op.del 50, Op.del 10, Op.del 30, Op.ins 5 2]).map
      (fun p => (p.1, lane_keys p.2 0, delete p.2 30)) =
    some ([ret_codes.OK, ret_codes.OK, ret_codes.OK, ret_codes.OK, ret_codes.OK,
           ret_codes.OK, ret_codes.OK], some [5], none) := by
  decide

/-- Claim C6.  Starting from `setup_list` on a variable whose level
member lies in `[0, MAXLEVEL]` (`setup_list` does not assign it), and
for any keys and any drawn heights in `[1, MAXLEVEL]`: every `insert` of
the sequence returns, the codes are `ERROR_DUPLICATE` exactly for the
keys that occurred earlier in the sequence and `OK` for the others, and
the traversal of lane 0 afterwards yields strictly increasing keys that
are exactly the keys of the sequence. -/
theorem insert_sequence (l0 : slist) (ins : List (Int × Int))
    (h0 : 0 ≤ l0.level) (h16 : l0.level ≤ (MAXLEVEL : Int))
    (hh : ∀ p, p ∈ ins → 1 ≤ p.2 ∧ p.2 ≤ (MAXLEVEL : Int)) :
    ∃ s ks, run (setup_list l0) (ins.map (fun p => Op.ins p.1 p.2)) =
        some (dup_codes [] (ins.map Prod.fst), s) ∧
      lane_keys s 0 = some ks ∧ ks.Pairwise (fun a b => a < b) ∧
      ∀ k, k ∈ ks ↔ k ∈ ins.map Prod.fst := by
  obtain ⟨s, ch, hrun, hg, hmem⟩ := run_inserts ins (setup_list l0) [] [] (Good_setup l0 h0 h16)
    (fun k => by simp) hh
  refine ⟨s, ch.map (valueAt s.mem), hrun, hg.lane0.lane_keys, hg.lane0.sorted, ?_⟩
  intro k
  rw [hmem k]
  simp

theorem insert_sequence_witness :
    ∃ s ks, run (setup_list { head := 0, level := 1 })
        ([((3 : Int), (1 : Int)), (1, 2), (4, 3), (1, 4), (5, 2), (9, 16)].map
          (fun p => Op.ins p.1 p.2)) =
        some (dup_codes [] ([((3 : Int), (1 : Int)), (1, 2), (4, 3), (1, 4), (5, 2), (9, 16)].map
          Prod.fst), s) ∧
      lane_keys s 0 = some ks ∧ ks.Pairwise (fun a b => a < b) ∧
      ∀ k, k ∈ ks ↔ k ∈ [((3 : Int), (1 : Int)), (1, 2), (4, 3), (1, 4), (5, 2), (9, 16)].map
        Prod.fst :=
  insert_sequence { head := 0, level := 1 } [(3, 1), (1, 2), (4, 3), (1, 4), (5, 2), (9, 16)]
    (by decide) (by decide) (by decide)

/-- Claim C7, evaluated on a reachable list.  From `setup_list` with
level 1, the calls `insert(1)` (height 2), `insert(5)`, `insert(9)`
(height 1), `delete(5)`, `delete(1)`, `insert(7)` (height 2) all return
`OK` and leave the keys 7, 9 on lane 0; `delete(9)`, for a key that is
on lane 0, then has no defined result instead of `OK`: its search loop
follows lane 1 from the block of key 7 into the freed block of key 1. -/
theorem delete_present_key_reads_freed_block :
    (run (setup_list { head := 0, level := 1 })
        [Op.ins 1 2, Op.ins 5 1, Op.ins 9 1, Op.del 5, Op.del 1, Op.ins 7 2]).map
      (fun p => (p.1, lane_keys p.2 0, delete p.2 9)) =
    some ([ret_codes.OK, ret_codes.OK, ret_codes.OK, ret_codes.OK, ret_codes.OK,
           ret_codes.OK], some [7, 9], none) := by
  decide

/-- Lane 0 as long as every call has a defined result.  For every list
obtained from `setup_list` (whatever the level member of the caller's
variable was) by calls of `insert` with drawn heights in `[1, MAXLEVEL]`
and of `delete` none of which reads a freed block or an unwritten slot,
the traversal of lane 0 from `head->forward[0]` ends, and the keys it
meets are strictly increasing.  This says nothing of a sequence in which
a call does read a freed block. -/
theorem lane0_strictly_increasing (s : State) (h : Reachable s) :
    ∃ ks, lane_keys s 0 = some ks ∧ ks.Pairwise (fun a b => a < b) ∧ ks.Nodup := by
  obtain ⟨ch, hch⟩ := Lane0_reachable h
  refine ⟨ch.map (valueAt s.mem), hch.lane_keys, hch.sorted, ?_⟩
  exact hch.sorted.imp (fun {a b} hab heq => by rw [heq] at hab; exact lt_irrefl _ hab)

theorem lane0_strictly_increasing_witness :
    ∃ ks, lane_keys
        { mem := [some { value := 0, level := 0,
                         forward := some (some 2) :: some (some 2) ::
                           (List.replicate 14 (some none) ++ [none]) },
                  none,
                  some { value := 1, level := 2, forward := [some none, some none, none] }],
          list := { head := 0, level := 1 } } 0 = some ks ∧
      ks.Pairwise (fun a b => a < b) ∧ ks.Nodup :=
  lane0_strictly_increasing _
    (Reachable_run (Reachable.setup { head := 0, level := 1 })
      [Op.ins 3 1, Op.ins 1 2, Op.del 3] [ret_codes.OK, ret_codes.OK, ret_codes.OK] _
      (by simp [heights_ok, MAXLEVEL]) (by decide))

/-- Claim C8, evaluated on a finite sequence of calls.  From
`setup_list` with level 1, the six calls `insert(1)` (height 2),
`insert(5)`, `insert(9)` (height 1), `delete(5)`, `delete(1)`,
`insert(7)` (height 2) return `OK` and leave the blocks of keys 7 and 9
(addresses 4 and 3) on lane 0, while `forward[1]` of the block of key 7
holds the address 1 of the block of key 1, which `delete(1)` freed.  The
sequence continued by `delete(9)` has no defined result: that call walks
lane 1 into the freed block, so the claim's property of lane 0 is not
kept for this sequence of calls. -/
theorem lane0_lost_after_use_of_freed_block :
    (run (setup_list { head := 0, level := 1 })
        [Op.ins 1 2, Op.ins 5 1, Op.ins 9 1, Op.del 5, Op.del 1, Op.ins 7 2]).map
      (fun p => (p.1, lane_nodes p.2 0, lane_keys p.2 0, readFwd p.2.mem 4 1, hdr p.2.mem 1)) =
      some ([ret_codes.OK, ret_codes.OK, ret_codes.OK, ret_codes.OK, ret_codes.OK,
             ret_codes.OK], some [4, 3], some [7, 9], some (some 1), none) ∧
    run (setup_list { head := 0, level := 1 })
        [Op.ins 1 2, Op.ins 5 1, Op.ins 9 1, Op.del 5, Op.del 1, Op.ins 7 2, Op.del 9] =
      none := by
  constructor <;> rfl

/-- Claim C9, evaluated on a reachable list.  From `setup_list` with
level 1, the calls `insert(1)` (height 2), `insert(5)` (height 1),
`delete(5)`, `insert(7)` (height 2) all return `OK` and leave the level
at 2, the keys 1, 7 on lane 0 and the keys 7, 1, in this order, on
lane 1: `delete(5)` lowered the level to 1 although the block of key 1
is on lane 1, and `insert(7)` then put its block at the front of that
lane. -/
theorem lane1_out_of_order :
    (run (setup_list { head := 0, level := 1 })
        [Op.ins 1 2, Op.ins 5 1, Op.del 5, Op.ins 7 2]).map
      (fun p => (p.1, p.2.list.level, lane_keys p.2 0, lane_keys p.2 1)) =
    some ([ret_codes.OK, ret_codes.OK, ret_codes.OK, ret_codes.OK], 2,
          some [1, 7], some [7, 1]) := by
  decide

/-- Claim C10, evaluated on a reachable list.  From `setup_list` with
level 1, the calls `insert(1)` (height 1), `insert(2)` (height 2),
`delete(1)`, `delete(2)` all return `OK`; afterwards lane 0 is empty
while `head->forward[1]` still holds the address of the block of key 2,
which has been freed, so that lane 1 cannot be traversed. -/
theorem lane1_keeps_freed_block :
    (run (setup_list { head := 0, level := 1 })
        [Op.ins 1 1, Op.ins 2 2, Op.del 1, Op.del 2]).map
      (fun p => (p.1, lane_nodes p.2 0, readFwd p.2.mem p.2.list.head 1, hdr p.2.mem 2,
        lane_nodes p.2 1)) =
    some ([ret_codes.OK, ret_codes.OK, ret_codes.OK, ret_codes.OK],
          some [], some (some 2), none, none) := by
  rfl

/-- Claim C11, evaluated on a reachable list.  From `setup_list` with
level 1, the calls `insert(4)` (height 2), `insert(8)` (height 1),
`delete(8)` all return `OK`; afterwards lane 0 holds the single block of
key 4 (address 1), whose recorded level is 2, while `list.level` is 1:
the shrink loop of `delete` found `head->forward[2]` empty and lowered
the level although lane 1 still holds that block. -/
theorem level_below_recorded_level :
    (run (setup_list { head := 0, level := 1 }) [Op.ins 4 2, Op.ins 8 1, Op.del 8]).map
      (fun p => (p.1, lane_nodes p.2 0, hdr p.2.mem 1, lane_nodes p.2 1, p.2.list.level)) =
    some ([ret_codes.OK, ret_codes.OK, ret_codes.OK], some [1], some (4, 2, 3), some [1], 1) := by
  rfl

/-- Claim C12, evaluated on a reachable list.  From `setup_list` with
level 1, the calls `insert(3)` (height 1), `insert(6)` (height 2),
`delete(3)` return `OK` and leave the block of key 6 (address 2) on
lanes 0 and 1 with the level at 1; `delete(6)` then returns `OK` and
frees that block, and `head->forward[1]` still refers to it. -/
theorem delete_leaves_reference_to_removed_block :
    (run (setup_list { head := 0, level := 1 }) [Op.ins 3 1, Op.ins 6 2, Op.del 3]).map
      (fun p => (lane_nodes p.2 0, lane_keys p.2 0, lane_nodes p.2 1, p.2.list.level,
        (delete p.2 6).map
          (fun q => (q.1, lane_nodes q.2 0, hdr q.2.mem 2, readFwd q.2.mem q.2.list.head 1)))) =
    some (some [2], some [6], some [2], 1,
      some (ret_codes.OK, some [], none, some (some 2))) := by
  rfl

/-- Claim C14, evaluated.  From `setup_list` with level 1, the keys 1
and 2 are inserted with drawn heights 2 and 3 and then deleted in
ascending order; all four calls return `OK` and lane 0 ends up empty,
but `list.level` ends at 2, not 1: `delete(2)` runs at level 2, does not
unlink its block from lane 2, and the shrink loop then finds
`head->forward[2]` not `NULL`. -/
theorem level_after_deleting_all :
    (run (setup_list { head := 0, level := 1 })
        [Op.ins 1 2, Op.ins 2 3, Op.del 1, Op.del 2]).map
      (fun p => (p.1, lane_nodes p.2 0, readFwd p.2.mem p.2.list.head 0, p.2.list.level)) =
    some ([ret_codes.OK, ret_codes.OK, ret_codes.OK, ret_codes.OK], some [], some none, 2) := by
  rfl

/-- Claim C16, evaluated.  Called on a variable whose level member holds
7, `setup_list` sets the `MAXLEVEL` lanes of the head to `NULL` and
leaves the level member at 7: it never assigns `list->level`. -/
theorem setup_list_keeps_level :
    (setup_list { head := 9, level := 7 }).list.level = 7 ∧
      (List.range MAXLEVEL).map
          (readFwd (setup_list { head := 9, level := 7 }).mem
            (setup_list { head := 9, level := 7 }).list.head) =
        List.replicate MAXLEVEL (some none) := by
  constructor <;> rfl

/-- Claim C19, evaluated on a reachable list.  From `setup_list` with
level 1, the calls `insert(2)` (height 2), `insert(6)` (height 1),
`delete(6)` return `OK` and leave the level at 1 with the block of key 2
(address 1) on lane 1, so `head->forward[1]` is not `NULL`; `insert(9)`
with drawn height 2 then grows the level from 1 to 2, and afterwards the
new block (address 3) is not alone on lane 1: its `forward[1]` is the
block of key 2. -/
theorem grown_lane_not_empty :
    (run (setup_list { head := 0, level := 1 }) [Op.ins 2 2, Op.ins 6 1, Op.del 6]).map
      (fun p => (p.2.list.level, readFwd p.2.mem p.2.list.head 1,
        (insert p.2 9 2).map
          (fun q => (q.1, q.2.list.level, readFwd q.2.mem q.2.list.head 1,
            readFwd q.2.mem 3 1, lane_nodes q.2 1)))) =
    some (1, some (some 1),
      some (ret_codes.OK, 2, some (some 3), some (some 1), some [3, 1])) := by
  rfl

/-- Claim C20, evaluated on a reachable list.  From `setup_list` with
level 1, fifteen calls of `insert` for the keys 1 to 15, each with drawn
height 16, return `OK` and bring the level to `MAXLEVEL` = 16;
`delete(1)` then finds and unlinks its block, and its level-shrink loop
reads `head->forward[16]`: an index that is not below `MAXLEVEL`, of a
slot that `setup_list` never wrote, so that the call has no defined
result. -/
theorem delete_reads_lane_MAXLEVEL :
    (run (setup_list { head := 0, level := 1 })
        [Op.ins 1 16, Op.ins 2 16, Op.ins 3 16, Op.ins 4 16, Op.ins 5 16, Op.ins 6 16,
         Op.ins 7 16, Op.ins 8 16, Op.ins 9 16, Op.ins 10 16, Op.ins 11 16, Op.ins 12 16,
         Op.ins 13 16, Op.ins 14 16, Op.ins 15 16]).map
      (fun p => (p.2.list.level, delete_shrink_reads p.2 1,
        readFwd p.2.mem p.2.list.head 16, delete p.2 1)) =
    some (16, some [16], none, none) := by
  rfl

/-- Claim C13 as stated fails.  From `setup_list` with level 1, the
level the specification gives a fresh list, one call `insert(5)` with
drawn height 2 returns `OK` and leaves `list.level` at 2, which is above
`min(MAXLEVEL, 1)`. -/
theorem level_exceeds_number_of_inserts :
    (run (setup_list { head := 0, level := 1 }) [Op.ins 5 2]).map
        (fun p => (p.1, p.2.list.level)) = some ([ret_codes.OK], 2) ∧
      ¬ ((2 : Int) ≤ min (MAXLEVEL : Int) 1) := by
  constructor
  · rfl
  · decide

/-- Claim C13, amended.  Starting from `setup_list` on a variable whose
level member `L0` lies in `[0, MAXLEVEL]`, for any keys and any drawn
heights in `[1, MAXLEVEL]`: every `insert` of the sequence returns, the
level after each call is the level before it or that level plus 1, and
after the `n` calls `list.level ≤ min(MAXLEVEL, L0 + n)`. -/
theorem insert_level_growth (l0 : slist) (ins : List (Int × Int))
    (h0 : 0 ≤ l0.level) (h16 : l0.level ≤ (MAXLEVEL : Int))
    (hh : ∀ p, p ∈ ins → 1 ≤ p.2 ∧ p.2 ≤ (MAXLEVEL : Int)) :
    ∃ rs s ls, run (setup_list l0) (ins.map (fun p => Op.ins p.1 p.2)) = some (rs, s) ∧
      levels_after (setup_list l0) (ins.map (fun p => Op.ins p.1 p.2)) = some ls ∧
      List.Chain (fun a b => a ≤ b ∧ b ≤ a + 1) l0.level ls ∧
      s.list.level ≤ min (MAXLEVEL : Int) (l0.level + (ins.length : Int)) := by
  obtain ⟨rs, s, ls, hrun, hlv, hchain, hle, hmax⟩ :=
    run_inserts_levels ins (setup_list l0) [] (Good_setup l0 h0 h16) hh
  exact ⟨rs, s, ls, hrun, hlv, hchain, le_min hmax hle⟩

theorem insert_level_growth_witness :
    ∃ rs s ls, run (setup_list { head := 0, level := 1 })
        ([((5 : Int), (2 : Int)), (7, 16), (5, 3)].map (fun p => Op.ins p.1 p.2)) =
        some (rs, s) ∧
      levels_after (setup_list { head := 0, level := 1 })
        ([((5 : Int), (2 : Int)), (7, 16), (5, 3)].map (fun p => Op.ins p.1 p.2)) = some ls ∧
      List.Chain (fun a b => a ≤ b ∧ b ≤ a + 1) (1 : Int) ls ∧
      s.list.level ≤ min (MAXLEVEL : Int)
        ((1 : Int) + (([((5 : Int), (2 : Int)), (7, 16), (5, 3)].length : Nat) : Int)) :=
  insert_level_growth { head := 0, level := 1 } [(5, 2), (7, 16), (5, 3)]
    (by decide) (by decide) (by decide)

/-- Claim C15.  For every sequence of values returned by `rand()`,
`random_level` returns, within `MAXLEVEL` iterations of its loop, the
value `min(MAXLEVEL, 1 + e)`, where `e` is the number of leading values
whose lowest bit is 0 (counted among the first `MAXLEVEL + extra`
values, for any `extra`); the value lies in `[1, MAXLEVEL]`. -/
theorem random_level_spec (rand : Nat → Nat) (extra : Nat) :
    ∃ lvl, random_level rand = some lvl ∧
      lvl = min (MAXLEVEL : Int) (1 + (leading_even rand (MAXLEVEL + extra) : Nat)) ∧
      1 ≤ lvl ∧ lvl ≤ (MAXLEVEL : Int) := by
  have h := random_level_loop_spec rand MAXLEVEL 0 (MAXLEVEL + extra) 1
    (by simp [MAXLEVEL]) (by simp [MAXLEVEL]) (by simp only [MAXLEVEL]; omega)
  have hfun : (fun i => rand (0 + i)) = rand := by
    funext i
    rw [Nat.zero_add]
  rw [hfun] at h
  refine ⟨_, h, rfl, ?_, min_le_left _ _⟩
  have : (0 : Int) ≤ (leading_even rand (MAXLEVEL + extra) : Nat) := Int.natCast_nonneg _
  apply le_min
  · simp [MAXLEVEL]
  · omega

/-- Claim C18.  For every memory and list with `list.level = L`, every
key and every drawn height `h` in `[1, MAXLEVEL]`: whenever `insert`
returns `OK` (the key was not found), then, if `h > L`, `list.level`
becomes `L + 1` and the recorded level of the new block is `L + 1`; if
`h ≤ L`, `list.level` stays `L` and the recorded level is `h`; and in
both cases the new block is linked into exactly the lanes below its
recorded level (`Linked`).  On a list built by insertions, `insert` of a
key that is not on lane 0 does return `OK`. -/
theorem insert_level_policy (s : State) (k h : Int) (hh : 1 ≤ h)
    (hh2 : h ≤ (MAXLEVEL : Int)) :
    (∀ s', insert s k h = some (ret_codes.OK, s') →
      ∃ lvl : Int,
        (s.list.level < h → s'.list.level = s.list.level + 1 ∧ lvl = s.list.level + 1) ∧
        (h ≤ s.list.level → s'.list.level = s.list.level ∧ lvl = h) ∧
        Linked s s' k lvl) ∧
    (∀ ch, Good s ch → k ∉ ch.map (valueAt s.mem) →
      ∃ s', insert s k h = some (ret_codes.OK, s')) := by
  constructor
  · intro s' hi
    exact insert_ok_linked hh hi
  · intro ch hg hk
    rcases insert_total k hg hh hh2 with ⟨hin, _⟩ | ⟨_, hs'⟩
    · exact absurd hin hk
    · exact hs'

theorem insert_level_policy_witness :
    (∀ s', insert (setup_list { head := 0, level := 1 }) 5 2 = some (ret_codes.OK, s') →
      ∃ lvl : Int,
        ((setup_list { head := 0, level := 1 }).list.level < 2 →
          s'.list.level = (setup_list { head := 0, level := 1 }).list.level + 1 ∧
          lvl = (setup_list { head := 0, level := 1 }).list.level + 1) ∧
        (2 ≤ (setup_list { head := 0, level := 1 }).list.level →
          s'.list.level = (setup_list { head := 0, level := 1 }).list.level ∧ lvl = 2) ∧
        Linked (setup_list { head := 0, level := 1 }) s' 5 lvl) ∧
    (∀ ch, Good (setup_list { head := 0, level := 1 }) ch →
      (5 : Int) ∉ ch.map (valueAt (setup_list { head := 0, level := 1 }).mem) →
      ∃ s', insert (setup_list { head := 0, level := 1 }) 5 2 = some (ret_codes.OK, s')) :=
  insert_level_policy (setup_list { head := 0, level := 1 }) 5 2 (by decide) (by decide)

/-- Claim C17.  On a list whose level lies in `[1, MAXLEVEL]`, whose
lanes `L i` below the level are traversable with strictly increasing
keys, every block of lane `i + 1` being on lane `i`, and for every key
`k`: the search loop of `insert` and `delete` (and, without the
recording, that of `search`) returns; for each lane `i` below the level
the lane splits as `pre ++ post`, `pre` holding the keys below `k` and
`post` the keys not below `k`, `update[i]` is the last block of `pre`
(the head if `pre` is empty) and `update[i]->forward[i]` is the first
block of `post` (`NULL` if `post` is empty); the block the loop ends at
is `update[0]`. -/
theorem search_path_predecessors (s : State) (k : Int) (L : Nat → List Nat)
    (h1 : 1 ≤ s.list.level) (h16 : s.list.level ≤ (MAXLEVEL : Int))
    (hL : ∀ i, i < s.list.level.toNat → lane_nodes s i = some (L i))
    (hs : ∀ i, i < s.list.level.toNat →
      ((L i).map (valueAt s.mem)).Pairwise (fun a b => a < b))
    (hsub : ∀ i, i + 1 < s.list.level.toNat → ∀ a, a ∈ L (i + 1) → a ∈ L i) :
    ∃ xf updf,
      find_update s.mem k s.list.level.toNat s.list.head update_init = some (xf, updf) ∧
      search_loop s.mem k s.list.level.toNat s.list.head = some xf ∧
      getUpdate updf 0 = some xf ∧
      ∀ i, i < s.list.level.toNat → ∃ pre post u, L i = pre ++ post ∧
        (∀ a, a ∈ pre → valueAt s.mem a < k) ∧ (∀ a, a ∈ post → ¬ valueAt s.mem a < k) ∧
        getUpdate updf i = some u ∧ u = pre.getLast?.getD s.list.head ∧
        readFwd s.mem u i = some post.head? := by
  have hN : s.list.level.toNat ≤ MAXLEVEL := by omega
  have hP : ∀ i, i < s.list.level.toNat → PathAt s.mem i s.list.head (L i) none :=
    fun i hi => lane_PathAt _ _ _ (hL i hi)
  obtain ⟨xf, updf, hf, hrest⟩ := find_update_wf (k := k) hN hP hs hsub s.list.level.toNat
    (le_refl _) s.list.head update_init update_init_length (Or.inl rfl)
  obtain ⟨-, hz, -⟩ := find_update_ends _ _ _ _ _ hf
  exact ⟨xf, updf, hf, find_update_search_loop _ _ _ _ _ hf, hz (by omega), hrest⟩

theorem search_path_predecessors_witness :
    ∃ xf updf,
      find_update (state_after [Op.ins 3 1, Op.ins 1 2, Op.ins 4 3]).mem 4
        (state_after [Op.ins 3 1, Op.ins 1 2, Op.ins 4 3]).list.level.toNat
        (state_after [Op.ins 3 1, Op.ins 1 2, Op.ins 4 3]).list.head update_init =
        some (xf, updf) ∧
      search_loop (state_after [Op.ins 3 1, Op.ins 1 2, Op.ins 4 3]).mem 4
        (state_after [Op.ins 3 1, Op.ins 1 2, Op.ins 4 3]).list.level.toNat
        (state_after [Op.ins 3 1, Op.ins 1 2, Op.ins 4 3]).list.head = some xf ∧
      getUpdate updf 0 = some xf ∧
      ∀ i, i < (state_after [Op.ins 3 1, Op.ins 1 2, Op.ins 4 3]).list.level.toNat →
        ∃ pre post u, example_lanes i = pre ++ post ∧
          (∀ a, a ∈ pre →
            valueAt (state_after [Op.ins 3 1, Op.ins 1 2, Op.ins 4 3]).mem a < 4) ∧
          (∀ a, a ∈ post →
            ¬ valueAt (state_after [Op.ins 3 1, Op.ins 1 2, Op.ins 4 3]).mem a < 4) ∧
          getUpdate updf i = some u ∧
          u = pre.getLast?.getD (state_after [Op.ins 3 1, Op.ins 1 2, Op.ins 4 3]).list.head ∧
          readFwd (state_after [Op.ins 3 1, Op.ins 1 2, Op.ins 4 3]).mem u i =
            some post.head? :=
  search_path_predecessors (state_after [Op.ins 3 1, Op.ins 1 2, Op.ins 4 3]) 4 example_lanes
    (by decide) (by decide) (by decide) (by decide)
    (by
      intro i hi a ha
      have hi3 : i + 1 < 3 := hi
      have hcases : i = 0 ∨ i = 1 := by omega
      rcases hcases with rfl | rfl
      · have ha' : a ∈ [2, 3] := ha
        show a ∈ [2, 1, 3]
        simp only [List.mem_cons, List.mem_singleton, List.not_mem_nil, or_false] at ha' ⊢
        rcases ha' with rfl | rfl
        · exact Or.inl rfl
        · exact Or.inr (Or.inr rfl)
      · have ha' : a ∈ [3] := ha
        show a ∈ [2, 3]
        simp only [List.mem_cons, List.mem_singleton, List.not_mem_nil, or_false] at ha' ⊢
        exact Or.inr ha')

end SkipList
